import Mathlib

/-!
The audit derivations and the job enrichment stage of audit-jenkins.

A shallow embedding of `types.go` and of the derivation and enrichment code of
`app.go`.

* A Go pointer field (`*JobOverview`, `*BuildOverview`, `*ViewDetails`) is an
  `Option`; dereferencing `nil` is a run-time panic, which the embedding renders
  as the result `none`.
* A function that receives `*JenkinsResponse` returns, next to its own result,
  the response as it stands when the function returns.
* `int` and `int64` fields are `Int`; every operation applied to them here
  (comparison, division by 1000) stays inside the 64-bit range.
* A `time.Time` is the number of nanoseconds since the Unix epoch, a
  `time.Duration` a number of nanoseconds; `float64` values are rationals
  rounded to 53 significant bits.
* `sort.Sort` is a parameter of `getStaleJobs`, constrained in the theorems by
  what its documentation promises (`SortContract`); `sortShort` is the insertion
  sort that Go's package `sort` runs on a slice of at most 12 elements.
* The worker goroutines of `getJobs` are rendered by a schedule: the order in
  which the work units are processed, each unit in one step.
-/

namespace AuditJenkins

/-! ## types.go -/

structure BuildOverview where
  Timestamp : Int
  Duration : Int
deriving DecidableEq, Repr

structure BuildEntry where
  Number : Int
  URL : String
  Overview : Option BuildOverview
deriving DecidableEq, Repr

structure HealthReport where
  Score : Int
  Description : String
deriving DecidableEq, Repr

structure JobOverview where
  Name : String
  URL : String
  Color : String
  LastBuild : BuildEntry
  LastSuccessfulBuild : BuildEntry
  HealthReport : List HealthReport
deriving DecidableEq, Repr

structure Job where
  Name : String
  URL : String
  Color : String
  Overview : Option JobOverview
deriving DecidableEq, Repr

structure ViewDetails where
  Description : String
  Jobs : List Job
  Name : String
deriving DecidableEq, Repr

structure View where
  Name : String
  Color : String
  URL : String
  Detail : Option ViewDetails
deriving DecidableEq, Repr

structure JenkinsResponse where
  Jobs : List Job
  Views : List View
deriving DecidableEq, Repr

/-! ## app.go: getNeverPassed, getNeverRun, showJobsOutsideViews -/

/-- Body of the `range response.Jobs` loop of `getNeverPassed`:
`job.Overview` is dereferenced without a nil check. -/
def neverPassedBody (target : List String) (job : Job) : Option (List String) :=
  match job.Overview with
  | none => none
  | some ov =>
    if ov.LastBuild.Number > 0 && ov.LastSuccessfulBuild.Number == 0 then
      some (target ++ [job.Name])
    else
      some target

def getNeverPassed (response : JenkinsResponse) : Option (List String × JenkinsResponse) :=
  match response.Jobs.foldlM neverPassedBody [] with
  | none => none
  | some target => some (target, response)

/-- Body of the `range response.Jobs` loop of `getNeverRun`. -/
def neverRunBody (target : List String) (job : Job) : Option (List String) :=
  match job.Overview with
  | none => none
  | some ov =>
    if ov.LastBuild.Number == 0 && ov.LastSuccessfulBuild.Number == 0 then
      some (target ++ [job.Name])
    else
      some target

def getNeverRun (response : JenkinsResponse) : Option (List String × JenkinsResponse) :=
  match response.Jobs.foldlM neverRunBody [] with
  | none => none
  | some target => some (target, response)

/-- The assignment `found[k] = v` on a `map[string]bool`; a key that was never
assigned reads as `false`. -/
def mapAssign (found : String → Bool) (k : String) (v : Bool) : String → Bool :=
  fun q => if q = k then v else found q

/-- Inner loop of `showJobsOutsideViews` over `view.Detail.Jobs`. -/
def markJobs (found : String → Bool) (jobs : List Job) : String → Bool :=
  jobs.foldl (fun fnd job => if fnd job.Name == false then mapAssign fnd job.Name true else fnd)
    found

/-- Body of the loop over `response.Views`: `view.Detail` is dereferenced only
for a view whose name is not "All". -/
def markView (found : String → Bool) (view : View) : Option (String → Bool) :=
  if view.Name != "All" then
    match view.Detail with
    | none => none
    | some detail => some (markJobs found detail.Jobs)
  else
    some found

/-- Second loop of `showJobsOutsideViews`. -/
def unallocatedJobs (found : String → Bool) (jobs : List Job) : List String :=
  jobs.foldl (fun unallocated job =>
    if found job.Name == false then unallocated ++ [job.Name] else unallocated) []

def showJobsOutsideViews (response : JenkinsResponse) :
    Option (List String × JenkinsResponse) :=
  match response.Views.foldlM markView (fun _ => false) with
  | none => none
  | some found => some (unallocatedJobs found response.Jobs, response)

/-! ## Go standard library: `time`, `float64`, `strconv` -/

/-- The constant `time.Second`, in nanoseconds. -/
def Second : Int := 1000000000

/-- The constant `time.Hour`, in nanoseconds. -/
def Hour : Int := 60 * 60 * Second

/-- Nanoseconds in 24 hours. -/
def Day : Int := 24 * Hour

/-- The instant `time.Unix(sec, nsec)`. -/
def timeUnix (sec nsec : Int) : Int := sec * 1000000000 + nsec

/-- The method `Time.Add`. -/
def timeAdd (t d : Int) : Int := t + d

/-- The method `Time.Before`. -/
def timeBefore (t u : Int) : Bool := decide (t < u)

/-- Largest `time.Duration`: `1<<63 - 1`. -/
def maxDuration : Int := 2 ^ 63 - 1

/-- Smallest `time.Duration`: `-1 << 63`. -/
def minDuration : Int := -(2 ^ 63)

/-- The method `Time.Sub`: the difference `t - u`, saturated to the range of
`time.Duration`. -/
def timeSub (t u : Int) : Int :=
  if maxDuration < t - u then maxDuration
  else if t - u < minDuration then minDuration
  else t - u

/-- Nearest integer, a tie going to the even neighbour. -/
def roundHalfEven (r : ℚ) : Int :=
  if r - ⌊r⌋ < 1 / 2 then ⌊r⌋
  else if 1 / 2 < r - ⌊r⌋ then ⌊r⌋ + 1
  else if ⌊r⌋ % 2 = 0 then ⌊r⌋
  else ⌊r⌋ + 1

/-- The `float64` nearest to `x` (round to nearest, ties to even, 53 significant
bits). The exponent is not bounded: every value the program computes with
lies between `2^-42` and `2^42` in magnitude or is zero, far inside the normal
range. -/
def float64 (x : ℚ) : ℚ :=
  if x = 0 then 0
  else (roundHalfEven (x / 2 ^ (Int.log 2 |x| - 52)) : ℚ) * 2 ^ (Int.log 2 |x| - 52)

/-- The method `Duration.Hours`:
`hour := d / Hour; nsec := d % Hour; return float64(hour) + float64(nsec)/(60*60*1e9)`. -/
def Duration.Hours (d : Int) : ℚ :=
  float64 (float64 (d.tdiv Hour) + float64 (float64 (d.tmod Hour) / (60 * 60 * 1000000000)))

/-- The conversion `int(x)` of a `float64`: the fraction is discarded. -/
def float64ToInt (x : ℚ) : Int := if 0 ≤ x then ⌊x⌋ else ⌈x⌉

/-- The expression `int(duration.Hours()/24)` of `getStaleJobs`. -/
def daysAgo (duration : Int) : Int := float64ToInt (float64 (Duration.Hours duration / 24))

/-- The function `strconv.Itoa`. -/
def Itoa (n : Int) : String :=
  if n < 0 then "-" ++ Nat.repr n.natAbs else Nat.repr n.natAbs

/-! ## app.go: byTimestamp, and `sort.Sort` -/

/-- The value `xVal` (`yVal`) that `Less` reads off one element: the timestamp of
the last build, or zero when the overview or the build overview is nil. -/
def timestampOf (job : Job) : Int :=
  match job.Overview with
  | none => 0
  | some ov =>
    match ov.LastBuild.Overview with
    | none => 0
    | some build => build.Timestamp

def byTimestamp.Len (s : List Job) : Nat := s.length

/-- The method `Swap`; an index outside the slice (a panic in Go, which
`sort.Sort` never causes) leaves the slice as it is. -/
def byTimestamp.Swap (s : List Job) (x y : Nat) : List Job :=
  match s[x]?, s[y]? with
  | some xObj, some yObj => (s.set x yObj).set y xObj
  | _, _ => s

/-- The method `Less`; an index outside the slice gives `false`. -/
def byTimestamp.Less (s : List Job) (x y : Nat) : Bool :=
  match s[x]?, s[y]? with
  | some xJob, some yJob => decide (timestampOf xJob < timestampOf yJob)
  | _, _ => false

/-- What the documentation of `sort.Sort` promises of a call on a `byTimestamp`:
the slice is rearranged (by `Swap` only, so into a permutation of itself) into
ascending order as determined by `Less`. Nothing is promised about the order
of elements that `Less` does not separate. -/
structure SortContract (sortSort : List Job → List Job) : Prop where
  perm : ∀ s, (sortSort s).Perm s
  ascending : ∀ s x y, x < y → y < byTimestamp.Len (sortSort s) →
    byTimestamp.Less (sortSort s) y x = false

/-- Inner loop of the `insertionSort` of Go's package `sort`:
`for j := i; j > a && data.Less(j, j-1); j-- { data.Swap(j, j-1) }`. -/
def insertionSortInner (s : List Job) (a : Nat) : Nat → List Job
  | 0 => s
  | j + 1 =>
    if a < j + 1 && byTimestamp.Less s (j + 1) j then
      insertionSortInner (byTimestamp.Swap s (j + 1) j) a j
    else s

/-- The function `insertionSort(data, a, b)` of Go's package `sort`:
`for i := a + 1; i < b; i++ { ...inner loop... }`. -/
def insertionSort (s : List Job) (a b : Nat) : List Job :=
  (List.range' (a + 1) (b - (a + 1))).foldl (fun t i => insertionSortInner t a i) s

/-- The path `sort.Sort` takes on a short slice: one insertion sort over the
whole of it. -/
def sortShort (s : List Job) : List Job := insertionSort s 0 (byTimestamp.Len s)

/-! ## app.go: getStaleJobs and the report of main -/

/-- Body of the `range response.Jobs` loop of `getStaleJobs`. `now` is the
instant both calls of `time.Now()` return. The right operand of `&&` is
evaluated, and `LastBuild.Overview` dereferenced, only when
`LastBuild.Number > 0`. -/
def staleBody (now : Int) (target : List String) (job : Job) : Option (List String) :=
  match job.Overview with
  | none => none
  | some ov =>
    if ov.LastBuild.Number > 0 then
      match ov.LastBuild.Overview with
      | none => none
      | some build =>
        if build.Timestamp > 0 then
          let stamp := timeUnix (build.Timestamp.tdiv 1000) 0
          let past := timeAdd now ((-24 * 7) * Hour)
          if timeBefore stamp past then
            let duration := timeSub now stamp
            some (target ++ [job.Name ++ " " ++ Itoa (daysAgo duration) ++ " days ago"])
          else some target
        else some target
    else some target

/-- The function `getStaleJobs`; `sort.Sort` reorders `response.Jobs` in place,
so the response handed back carries the sorted job sequence. -/
def getStaleJobs (sortSort : List Job → List Job) (now : Int) (response : JenkinsResponse) :
    Option (List String × JenkinsResponse) :=
  let sorted : JenkinsResponse := ⟨sortSort response.Jobs, response.Views⟩
  match sorted.Jobs.foldlM (staleBody now) [] with
  | none => none
  | some target => some (target, sorted)

/-- The else-branch of `main` without the printing: the four derivations in
report order, each on the response as the one before left it. -/
def mainReport (sortSort : List Job → List Job) (now : Int) (response : JenkinsResponse) :
    Option ((List String × List String × List String × List String) × JenkinsResponse) :=
  match showJobsOutsideViews response with
  | none => none
  | some (jobsOutsideViews, r1) =>
    match getNeverRun r1 with
    | none => none
    | some (neverRun, r2) =>
      match getNeverPassed r2 with
      | none => none
      | some (neverPassed, r3) =>
        match getStaleJobs sortSort now r3 with
        | none => none
        | some (stale, r4) => some ((jobsOutsideViews, neverRun, neverPassed, stale), r4)

/-! ## app.go: getJobs -/

/-- The work unit a worker receives over the channel. -/
structure jobFetch where
  Job : Job
  JobIndex : Nat
deriving DecidableEq, Repr

/-- The units the loop `for i, job := range res.Jobs` sends, numbered from `i`. -/
def workItemsFrom (i : Nat) : List Job → List jobFetch
  | [] => []
  | job :: rest => ⟨job, i⟩ :: workItemsFrom (i + 1) rest

/-- The units sent for the root job list, in the order they are sent. -/
def workItems (jobs : List Job) : List jobFetch := workItemsFrom 0 jobs

/-- The assignment `res.Jobs[i].Overview = jobOverview`; the caller has checked
the index. -/
def setOverview : List Job → Nat → JobOverview → List Job
  | [], _, _ => []
  | job :: rest, 0, ov => ⟨job.Name, job.URL, job.Color, some ov⟩ :: rest
  | job :: rest, i + 1, ov => job :: setOverview rest i ov

/-- The assignment `jobOverview.LastBuild.Overview = build`. -/
def attachBuild (ov : JobOverview) (build : BuildOverview) : JobOverview :=
  ⟨ov.Name, ov.URL, ov.Color, ⟨ov.LastBuild.Number, ov.LastBuild.URL, some build⟩,
    ov.LastSuccessfulBuild, ov.HealthReport⟩

/-- One pass of a worker's loop body over a unit, taken as one step on the job
slice. `fetchJob` and `fetchBuild` stand for the two fetch-and-decode
functions, `none` for a returned error. The slot holds the pointer
`jobOverview`, so the build overview attached afterwards is seen through the
slot. A failed fetch makes the worker return before `wg.Done()`, so that
`wg.Wait()` never returns and `getJobs` yields no result: `none`. An index
outside the slice is a panic: `none` as well. -/
def workerBody (fetchJob : Job → Option JobOverview)
    (fetchBuild : Int → Job → Option BuildOverview) (jobs : List Job) (work : jobFetch) :
    Option (List Job) :=
  match fetchJob work.Job with
  | none => none
  | some jobOverview =>
    if work.JobIndex < jobs.length then
      if jobOverview.LastBuild.Number > 0 then
        match fetchBuild jobOverview.LastBuild.Number work.Job with
        | none => none
        | some build => some (setOverview jobs work.JobIndex (attachBuild jobOverview build))
      else some (setOverview jobs work.JobIndex jobOverview)
    else none

/-- Body of the loop over `res.Views`: the detail is fetched from the view's URL
and attached; an error ends `getJobs`. -/
def attachDetail (getView : String → Option ViewDetails) (view : View) : Option View :=
  match getView view.URL with
  | none => none
  | some viewDetail => some ⟨view.Name, view.Color, view.URL, some viewDetail⟩

/-- The function `getJobs`. `rootFetch` is the decoded root document (`none` when
the fetch or the decoding failed), `schedule` the order in which the workers
take the units off the channel and process them. -/
def getJobs (rootFetch : Option JenkinsResponse) (schedule : List jobFetch)
    (fetchJob : Job → Option JobOverview) (fetchBuild : Int → Job → Option BuildOverview)
    (getView : String → Option ViewDetails) : Option JenkinsResponse :=
  match rootFetch with
  | none => none
  | some res =>
    match schedule.foldlM (workerBody fetchJob fetchBuild) res.Jobs with
    | none => none
    | some jobs =>
      match res.Views.mapM (attachDetail getView) with
      | none => none
      | some views => some ⟨jobs, views⟩

/-- The function `main` in report mode, from the call of `getJobs` on: the
derivations are called on the response `getJobs` returned, and on nothing else;
when `getJobs` gives no result no list is derived. -/
def mainRun (rootFetch : Option JenkinsResponse) (schedule : List jobFetch)
    (fetchJob : Job → Option JobOverview) (fetchBuild : Int → Job → Option BuildOverview)
    (getView : String → Option ViewDetails) (sortSort : List Job → List Job) (now : Int) :
    Option (List String × List String × List String × List String) :=
  match getJobs rootFetch schedule fetchJob fetchBuild getView with
  | none => none
  | some jobResponse =>
    match mainReport sortSort now jobResponse with
    | none => none
    | some (findings, _) => some findings

/-! ## Predicates of the specification -/

/-- The job has an overview attached. -/
def hasOverview (job : Job) : Bool := job.Overview.isSome

/-- The job is enriched as far as Stage 1 enriches it: it has an overview, and a
build overview as well when `lastBuild.number > 0`. -/
def jobEnriched (job : Job) : Bool :=
  match job.Overview with
  | none => false
  | some ov => decide (ov.LastBuild.Number ≤ 0) || ov.LastBuild.Overview.isSome

/-- Every job is enriched and every view has its detail attached. -/
def FullyEnriched (response : JenkinsResponse) : Prop :=
  (∀ job ∈ response.Jobs, jobEnriched job = true) ∧
  (∀ view ∈ response.Views, view.Detail.isSome = true)

/-- Job names are unique within the response. -/
def UniqueNames (response : JenkinsResponse) : Prop :=
  (response.Jobs.map Job.Name).Nodup

/-- The field `lastBuild.number` of the job's overview (zero without one). -/
def lastBuildNumber (job : Job) : Int :=
  match job.Overview with
  | none => 0
  | some ov => ov.LastBuild.Number

/-- The field `lastSuccessfulBuild.number` of the job's overview. -/
def lastSuccessfulBuildNumber (job : Job) : Int :=
  match job.Overview with
  | none => 0
  | some ov => ov.LastSuccessfulBuild.Number

/-- The name occurs in the detail job list of a view not named "All". -/
def inSomeView (response : JenkinsResponse) (name : String) : Prop :=
  ∃ view ∈ response.Views, view.Name ≠ "All" ∧
    ∃ detail, view.Detail = some detail ∧ ∃ member ∈ detail.Jobs, member.Name = name

/-- The response with the job list of every view named "All" replaced. -/
def replaceAllJobs (newJobs : List Job) (response : JenkinsResponse) : JenkinsResponse :=
  ⟨response.Jobs, response.Views.map (fun view =>
    if view.Name = "All" then
      ⟨view.Name, view.Color, view.URL,
        view.Detail.map (fun detail => ⟨detail.Description, newJobs, detail.Name⟩)⟩
    else view)⟩

/-- The `time.Duration` from the job's last-build timestamp, cut to whole seconds
as `time.Unix(timestamp/1000, 0)` cuts it, to `now`. -/
def elapsed (now : Int) (job : Job) : Int :=
  timeSub now (timeUnix ((timestampOf job).tdiv 1000) 0)

/-- The job has built, has a positive last-build timestamp, and more than 7×24
hours have elapsed since. -/
def isStale (now : Int) (job : Job) : Bool :=
  decide (0 < lastBuildNumber job) && decide (0 < timestampOf job) &&
    decide (7 * 24 * Hour < elapsed now job)

/-- The finding for a stale job: its name, floor(elapsed hours / 24), " days ago".
The elapsed hours are the `float64` that `Duration.Hours` gives for the elapsed
duration, and the division by 24 is the `float64` division. -/
def staleFinding (now : Int) (job : Job) : String :=
  job.Name ++ " " ++ Itoa ⌊float64 (Duration.Hours (elapsed now job) / 24)⌋ ++ " days ago"

/-- The time from the job's last-build timestamp, taken to the millisecond, to
`now`, in nanoseconds. -/
def elapsedMillis (now : Int) (job : Job) : Int := now - timestampOf job * 1000000

/-- The staleness test with the elapsed time taken from the millisecond
timestamp. -/
def isStaleMillis (now : Int) (job : Job) : Bool :=
  decide (0 < lastBuildNumber job) && decide (0 < timestampOf job) &&
    decide (7 * 24 * Hour < elapsedMillis now job)

/-- The overview Stage 1 obtains for a job: the fetched job overview, with the
fetched build overview attached when `lastBuild.number > 0`. -/
def fetchedOverview (fetchJob : Job → Option JobOverview)
    (fetchBuild : Int → Job → Option BuildOverview) (job : Job) : Option JobOverview :=
  match fetchJob job with
  | none => none
  | some ov =>
    if ov.LastBuild.Number > 0 then
      match fetchBuild ov.LastBuild.Number job with
      | none => none
      | some build => some (attachBuild ov build)
    else some ov

/-- Every fetch of Stage 1 for the job succeeds. -/
def fetchesSucceed (fetchJob : Job → Option JobOverview)
    (fetchBuild : Int → Job → Option BuildOverview) (job : Job) : Bool :=
  (fetchedOverview fetchJob fetchBuild job).isSome

/-- The job as Stage 1 leaves it when its fetches succeed: name, URL and colour
of the root entry, and the overview fetched for it. -/
def enrichedJob (fetchJob : Job → Option JobOverview)
    (fetchBuild : Int → Job → Option BuildOverview) (job : Job) : Job :=
  ⟨job.Name, job.URL, job.Color, fetchedOverview fetchJob fetchBuild job⟩

/-! ## Inputs: the scenario of the specification and others -/

/-- Job A of the scenario: last build 5, last successful build 5, built at `ts`. -/
def jobA (ts : Int) : Job :=
  ⟨"A", "a/", "blue", some ⟨"A", "a/", "blue", ⟨5, "a/5/", some ⟨ts, 60000⟩⟩,
    ⟨5, "a/5/", none⟩, []⟩⟩

/-- Job B of the scenario: never built. -/
def jobB : Job :=
  ⟨"B", "b/", "notbuilt", some ⟨"B", "b/", "notbuilt", ⟨0, "", none⟩, ⟨0, "", none⟩, []⟩⟩

/-- Job C of the scenario: last build 3, never successful, built at `ts`. -/
def jobC (ts : Int) : Job :=
  ⟨"C", "c/", "red", some ⟨"C", "c/", "red", ⟨3, "c/3/", some ⟨ts, 60000⟩⟩,
    ⟨0, "", none⟩, []⟩⟩

/-- The view "team" of the scenario, containing job A only. -/
def teamView : View :=
  ⟨"team", "", "view/team/", some ⟨"", [⟨"A", "a/", "blue", none⟩], "team"⟩⟩

/-- The scenario at the instant `nowMs` (milliseconds since the epoch): A was
built 8 days before, C 1 day before. -/
def scenario (nowMs : Int) : JenkinsResponse :=
  ⟨[jobA (nowMs - 8 * 86400000), jobB, jobC (nowMs - 86400000)], [teamView]⟩

/-- The view "All" of a server that lists A, B and C. -/
def allView : View :=
  ⟨"All", "", "view/All/", some ⟨"", [⟨"A", "a/", "blue", none⟩, ⟨"B", "b/", "notbuilt", none⟩,
    ⟨"C", "c/", "red", none⟩], "All"⟩⟩

/-- The scenario with the view "All" listed before the view "team". -/
def scenarioWithAll (nowMs : Int) : JenkinsResponse :=
  ⟨(scenario nowMs).Jobs, [allView, teamView]⟩

/-- A job last built at 1700000000.999 s after the epoch. -/
def boundaryJob : Job :=
  ⟨"X", "x/", "blue", some ⟨"X", "x/", "blue", ⟨1, "x/1/", some ⟨1700000000999, 60000⟩⟩,
    ⟨1, "x/1/", none⟩, []⟩⟩

/-- A response with that job alone. -/
def boundaryResponse : JenkinsResponse := ⟨[boundaryJob], []⟩

/-- The instant 7 days and half a second after 1700000000 s, in nanoseconds. -/
def boundaryNow : Int := 1700604800500000000

/-- The root document of a server that lists A, B and C and the views "All" and
"team": summaries only. -/
def rootResponse : JenkinsResponse :=
  ⟨[⟨"A", "a/", "blue", none⟩, ⟨"B", "b/", "notbuilt", none⟩, ⟨"C", "c/", "red", none⟩],
    [⟨"All", "", "view/All/", none⟩, ⟨"team", "", "view/team/", none⟩]⟩

/-- A server's answers to the job-overview requests, by job URL. -/
def serverJob (job : Job) : Option JobOverview :=
  if job.URL = "a/" then some ⟨"A", "a/", "blue", ⟨5, "a/5/", none⟩, ⟨5, "a/5/", none⟩, []⟩
  else if job.URL = "b/" then some ⟨"B", "b/", "notbuilt", ⟨0, "", none⟩, ⟨0, "", none⟩, []⟩
  else if job.URL = "c/" then some ⟨"C", "c/", "red", ⟨3, "c/3/", none⟩, ⟨0, "", none⟩, []⟩
  else none

/-- A server's answers to the build-overview requests. -/
def serverBuild (build : Int) (job : Job) : Option BuildOverview :=
  if job.URL = "a/" ∧ build = 5 then some ⟨1699308800000, 60000⟩
  else if job.URL = "c/" ∧ build = 3 then some ⟨1699913600000, 60000⟩
  else none

/-- A server's answers to the view requests, by view URL. -/
def serverView (viewURL : String) : Option ViewDetails :=
  if viewURL = "view/All/" then allView.Detail
  else if viewURL = "view/team/" then teamView.Detail
  else none

/-- The same server when its answer to the job-overview request for B does not
decode: `fetchJob` returns an error for B. -/
def serverJobBadB (job : Job) : Option JobOverview :=
  if job.URL = "b/" then none else serverJob job

/-- The same server when its answer to the build-overview request for C does not
decode: `fetchBuild` returns an error for C. -/
def serverBuildBadC (build : Int) (job : Job) : Option BuildOverview :=
  if job.URL = "c/" then none else serverBuild build job

/-! ## The loops over `response.Jobs` -/

theorem hasOverview_of_jobEnriched {job : Job} (h : jobEnriched job = true) :
    hasOverview job = true := by
  unfold jobEnriched at h
  unfold hasOverview
  cases hov : job.Overview with
  | none => rw [hov] at h; simp at h
  | some ov => rfl

theorem foldlM_neverPassedBody (jobs : List Job) (h : ∀ job ∈ jobs, hasOverview job = true)
    (target : List String) :
    jobs.foldlM neverPassedBody target = some (target ++
      (jobs.filter (fun job =>
        decide (0 < lastBuildNumber job) && decide (lastSuccessfulBuildNumber job = 0))).map
        Job.Name) := by
  induction jobs generalizing target with
  | nil => simp
  | cons job rest ih =>
    have hj := h job (List.mem_cons_self _ _)
    have hrest : ∀ k ∈ rest, hasOverview k = true := fun k hk => h k (List.mem_cons_of_mem _ hk)
    unfold hasOverview at hj
    obtain ⟨ov, hov⟩ := Option.isSome_iff_exists.mp hj
    rw [List.foldlM_cons]
    by_cases hc : 0 < ov.LastBuild.Number ∧ ov.LastSuccessfulBuild.Number = 0
    · have hb : neverPassedBody target job = some (target ++ [job.Name]) := by
        simp [neverPassedBody, hov, hc.1, hc.2]
      rw [hb]
      simp only [Option.bind_eq_bind, Option.some_bind]
      rw [ih hrest]
      simp [List.filter_cons, lastBuildNumber, lastSuccessfulBuildNumber, hov, hc.1, hc.2]
    · have hb : neverPassedBody target job = some target := by
        simp only [neverPassedBody, hov]
        rw [if_neg]
        simpa using hc
      rw [hb]
      simp only [Option.bind_eq_bind, Option.some_bind]
      rw [ih hrest]
      have : (decide (0 < lastBuildNumber job) &&
          decide (lastSuccessfulBuildNumber job = 0)) = false := by
        simp only [lastBuildNumber, lastSuccessfulBuildNumber, hov]
        simpa using hc
      simp [List.filter_cons, this]

theorem foldlM_neverRunBody (jobs : List Job) (h : ∀ job ∈ jobs, hasOverview job = true)
    (target : List String) :
    jobs.foldlM neverRunBody target = some (target ++
      (jobs.filter (fun job =>
        decide (lastBuildNumber job = 0) && decide (lastSuccessfulBuildNumber job = 0))).map
        Job.Name) := by
  induction jobs generalizing target with
  | nil => simp
  | cons job rest ih =>
    have hj := h job (List.mem_cons_self _ _)
    have hrest : ∀ k ∈ rest, hasOverview k = true := fun k hk => h k (List.mem_cons_of_mem _ hk)
    unfold hasOverview at hj
    obtain ⟨ov, hov⟩ := Option.isSome_iff_exists.mp hj
    rw [List.foldlM_cons]
    by_cases hc : ov.LastBuild.Number = 0 ∧ ov.LastSuccessfulBuild.Number = 0
    · have hb : neverRunBody target job = some (target ++ [job.Name]) := by
        simp [neverRunBody, hov, hc.1, hc.2]
      rw [hb]
      simp only [Option.bind_eq_bind, Option.some_bind]
      rw [ih hrest]
      simp [List.filter_cons, lastBuildNumber, lastSuccessfulBuildNumber, hov, hc.1, hc.2]
    · have hb : neverRunBody target job = some target := by
        simp only [neverRunBody, hov]
        rw [if_neg]
        simpa using hc
      rw [hb]
      simp only [Option.bind_eq_bind, Option.some_bind]
      rw [ih hrest]
      have : (decide (lastBuildNumber job = 0) &&
          decide (lastSuccessfulBuildNumber job = 0)) = false := by
        simp only [lastBuildNumber, lastSuccessfulBuildNumber, hov]
        simpa using hc
      simp [List.filter_cons, this]

/-- Under unique names a job of the list is the only one carrying its name. -/
theorem eq_of_name_eq {jobs : List Job} (hu : (jobs.map Job.Name).Nodup) {j k : Job}
    (hj : j ∈ jobs) (hk : k ∈ jobs) (h : j.Name = k.Name) : j = k :=
  List.inj_on_of_nodup_map hu hj hk h

/-! ## The loops of `showJobsOutsideViews` -/

theorem markJobs_true_iff (jobs : List Job) (found : String → Bool) (q : String) :
    markJobs found jobs q = true ↔ found q = true ∨ ∃ member ∈ jobs, member.Name = q := by
  unfold markJobs
  induction jobs generalizing found with
  | nil => simp
  | cons job rest ih =>
    rw [List.foldl_cons, ih]
    by_cases hf : found job.Name = true
    · simp only [hf, Bool.true_eq_false, beq_iff_eq, if_false, List.mem_cons]
      constructor
      · rintro (h | ⟨m, hm, rfl⟩)
        · exact Or.inl h
        · exact Or.inr ⟨m, Or.inr hm, rfl⟩
      · rintro (h | ⟨m, hm | hm, rfl⟩)
        · exact Or.inl h
        · subst hm; exact Or.inl hf
        · exact Or.inr ⟨m, hm, rfl⟩
    · have hf2 : found job.Name = false := by simpa using hf
      simp only [hf2, beq_self_eq_true, if_true, List.mem_cons, mapAssign]
      constructor
      · rintro (h | ⟨m, hm, rfl⟩)
        · by_cases hq : q = job.Name
          · exact Or.inr ⟨job, Or.inl rfl, hq.symm⟩
          · rw [if_neg hq] at h; exact Or.inl h
        · exact Or.inr ⟨m, Or.inr hm, rfl⟩
      · rintro (h | ⟨m, hm | hm, rfl⟩)
        · by_cases hq : q = job.Name
          · left; rw [if_pos hq]
          · left; rw [if_neg hq]; exact h
        · subst hm; left; rw [if_pos rfl]
        · exact Or.inr ⟨m, hm, rfl⟩

theorem foldlM_markView (views : List View) (h : ∀ view ∈ views, view.Detail.isSome = true)
    (found : String → Bool) :
    ∃ marked, views.foldlM markView found = some marked ∧
      ∀ q, marked q = true ↔ found q = true ∨
        ∃ view ∈ views, view.Name ≠ "All" ∧
          ∃ detail, view.Detail = some detail ∧ ∃ member ∈ detail.Jobs, member.Name = q := by
  induction views generalizing found with
  | nil => exact ⟨found, by simp, by simp⟩
  | cons view rest ih =>
    have hv := h view (List.mem_cons_self _ _)
    have hrest : ∀ w ∈ rest, w.Detail.isSome = true := fun w hw => h w (List.mem_cons_of_mem _ hw)
    obtain ⟨detail, hd⟩ := Option.isSome_iff_exists.mp hv
    rw [List.foldlM_cons]
    by_cases hall : view.Name = "All"
    · have hb : markView found view = some found := by simp [markView, hall]
      rw [hb]
      simp only [Option.bind_eq_bind, Option.some_bind]
      obtain ⟨marked, hm, hq⟩ := ih hrest found
      refine ⟨marked, hm, fun q => ?_⟩
      rw [hq q]
      constructor
      · rintro (h1 | ⟨w, hw, hne, rest2⟩)
        · exact Or.inl h1
        · exact Or.inr ⟨w, List.mem_cons_of_mem _ hw, hne, rest2⟩
      · rintro (h1 | ⟨w, hw, hne, rest2⟩)
        · exact Or.inl h1
        · rcases List.mem_cons.mp hw with hw | hw
          · subst hw; exact absurd hall hne
          · exact Or.inr ⟨w, hw, hne, rest2⟩
    · have hb : markView found view = some (markJobs found detail.Jobs) := by
        simp [markView, hall, hd]
      rw [hb]
      simp only [Option.bind_eq_bind, Option.some_bind]
      obtain ⟨marked, hm, hq⟩ := ih hrest (markJobs found detail.Jobs)
      refine ⟨marked, hm, fun q => ?_⟩
      rw [hq q, markJobs_true_iff]
      constructor
      · rintro ((h1 | ⟨m, hm1, hm2⟩) | ⟨w, hw, hne, rest2⟩)
        · exact Or.inl h1
        · exact Or.inr ⟨view, List.mem_cons_self _ _, hall, detail, hd, m, hm1, hm2⟩
        · exact Or.inr ⟨w, List.mem_cons_of_mem _ hw, hne, rest2⟩
      · rintro (h1 | ⟨w, hw, hne, d2, hd2, m, hm1, hm2⟩)
        · exact Or.inl (Or.inl h1)
        · rcases List.mem_cons.mp hw with hw | hw
          · subst hw
            rw [hd] at hd2
            cases hd2
            exact Or.inl (Or.inr ⟨m, hm1, hm2⟩)
          · exact Or.inr ⟨w, hw, hne, d2, hd2, m, hm1, hm2⟩

theorem foldl_unallocated (found : String → Bool) (jobs : List Job) (acc : List String) :
    jobs.foldl (fun unallocated job =>
      if found job.Name == false then unallocated ++ [job.Name] else unallocated) acc =
    acc ++ (jobs.filter (fun job => found job.Name == false)).map Job.Name := by
  induction jobs generalizing acc with
  | nil => simp
  | cons job rest ih =>
    rw [List.foldl_cons, ih]
    by_cases hf : found job.Name = true
    · simp [List.filter_cons, hf]
    · have hf2 : found job.Name = false := by simpa using hf
      simp [List.filter_cons, hf2]

theorem unallocatedJobs_eq (found : String → Bool) (jobs : List Job) :
    unallocatedJobs found jobs =
      (jobs.filter (fun job => found job.Name == false)).map Job.Name := by
  unfold unallocatedJobs
  rw [foldl_unallocated]
  simp

/-- A view named "All" is skipped by the marking loop, whatever its detail. -/
theorem foldlM_markView_replace (newJobs : List Job) (views : List View)
    (found : String → Bool) :
    (views.map (fun view =>
      if view.Name = "All" then
        (⟨view.Name, view.Color, view.URL,
          view.Detail.map (fun detail => ⟨detail.Description, newJobs, detail.Name⟩)⟩ : View)
      else view)).foldlM markView found = views.foldlM markView found := by
  induction views generalizing found with
  | nil => rfl
  | cons view rest ih =>
    rw [List.map_cons, List.foldlM_cons, List.foldlM_cons]
    by_cases hall : view.Name = "All"
    · have h1 : markView found view = some found := by simp [markView, hall]
      have h2 : markView found (if view.Name = "All" then
          (⟨view.Name, view.Color, view.URL,
            view.Detail.map (fun detail => ⟨detail.Description, newJobs, detail.Name⟩)⟩ : View)
          else view) = some found := by
        rw [if_pos hall]
        simp [markView, hall]
      rw [h1, h2]
      simp only [Option.bind_eq_bind, Option.some_bind]
      exact ih found
    · rw [if_neg hall]
      cases hb : markView found view with
      | none => rfl
      | some marked =>
        simp only [Option.bind_eq_bind, Option.some_bind]
        exact ih marked

/-! ## Rounding to `float64` -/

theorem floor_le_roundHalfEven (r : ℚ) : ⌊r⌋ ≤ roundHalfEven r := by
  unfold roundHalfEven
  split_ifs <;> omega

theorem roundHalfEven_le_floor_succ (r : ℚ) : roundHalfEven r ≤ ⌊r⌋ + 1 := by
  unfold roundHalfEven
  split_ifs <;> omega

theorem le_roundHalfEven {k : Int} {r : ℚ} (h : (k : ℚ) ≤ r) : k ≤ roundHalfEven r :=
  le_trans (Int.le_floor.mpr h) (floor_le_roundHalfEven r)

theorem roundHalfEven_le {k : Int} {r : ℚ} (h : r ≤ (k : ℚ)) : roundHalfEven r ≤ k := by
  rcases eq_or_lt_of_le h with heq | hlt
  · subst heq
    unfold roundHalfEven
    simp
  · have : ⌊r⌋ < k := Int.floor_lt.mpr hlt
    have := roundHalfEven_le_floor_succ r
    omega

theorem roundHalfEven_le_add_half (r : ℚ) : (roundHalfEven r : ℚ) ≤ r + 1 / 2 := by
  have h1 := Int.floor_le r
  have h2 := Int.lt_floor_add_one r
  unfold roundHalfEven
  split_ifs with a b c
  · linarith
  · push_cast; linarith
  · linarith
  · push_cast
    have : r - ⌊r⌋ = 1 / 2 := le_antisymm (not_lt.mp b) (not_lt.mp a)
    linarith

/-- The scaled argument of the rounding lies in `[2^52, 2^53)`. -/
theorem scaled_bounds {x : ℚ} (hx : 0 < x) :
    (2 : ℚ) ^ (52 : ℕ) ≤ x / 2 ^ (Int.log 2 x - 52) ∧
      x / 2 ^ (Int.log 2 x - 52) < (2 : ℚ) ^ (53 : ℕ) := by
  have hP : (0 : ℚ) < 2 ^ (Int.log 2 x - 52) := zpow_pos (by norm_num) _
  have h1 : ((2 : ℕ) : ℚ) ^ Int.log 2 x ≤ x := Int.zpow_log_le_self (by norm_num) hx
  have h2 : x < ((2 : ℕ) : ℚ) ^ (Int.log 2 x + 1) := Int.lt_zpow_succ_log_self (by norm_num) x
  have e1 : ((2 : ℕ) : ℚ) ^ Int.log 2 x = 2 ^ (52 : ℕ) * 2 ^ (Int.log 2 x - 52) := by
    rw [← zpow_natCast, ← zpow_add₀ (by norm_num)]
    norm_num
  have e2 : ((2 : ℕ) : ℚ) ^ (Int.log 2 x + 1) = 2 ^ (53 : ℕ) * 2 ^ (Int.log 2 x - 52) := by
    rw [← zpow_natCast, ← zpow_add₀ (by norm_num)]
    congr 1
    push_cast
    ring
  rw [e1] at h1
  rw [e2] at h2
  exact ⟨(le_div_iff₀ hP).mpr h1, (div_lt_iff₀ hP).mpr h2⟩

theorem float64_zero : float64 0 = 0 := by simp [float64]

theorem float64_of_pos {x : ℚ} (hx : 0 < x) :
    float64 x =
      (roundHalfEven (x / 2 ^ (Int.log 2 x - 52)) : ℚ) * 2 ^ (Int.log 2 x - 52) := by
  unfold float64
  rw [if_neg (ne_of_gt hx), abs_of_pos hx]

theorem float64_nonneg {x : ℚ} (hx : 0 ≤ x) : 0 ≤ float64 x := by
  rcases eq_or_lt_of_le hx with h | h
  · rw [← h, float64_zero]
  · rw [float64_of_pos h]
    have hP : (0 : ℚ) < 2 ^ (Int.log 2 x - 52) := zpow_pos (by norm_num) _
    have h0 : (0 : ℤ) ≤ roundHalfEven (x / 2 ^ (Int.log 2 x - 52)) :=
      le_roundHalfEven (by push_cast; exact div_nonneg hx hP.le)
    exact mul_nonneg (by exact_mod_cast h0) hP.le

/-- Rounding does not fall below an integer the argument has reached. -/
theorem le_float64 {k : Int} {x : ℚ} (hk : 0 ≤ k) (hk2 : k ≤ 2 ^ 53) (h : (k : ℚ) ≤ x) :
    (k : ℚ) ≤ float64 x := by
  rcases eq_or_lt_of_le hk with h0 | hkpos
  · subst h0
    simpa using float64_nonneg (by simpa using h)
  have hx : 0 < x := lt_of_lt_of_le (by exact_mod_cast hkpos) h
  rw [float64_of_pos hx]
  obtain ⟨hlo, -⟩ := scaled_bounds hx
  have hP : (0 : ℚ) < 2 ^ (Int.log 2 x - 52) := zpow_pos (by norm_num) _
  rcases le_or_lt (Int.log 2 x - 52) 0 with he | he
  · obtain ⟨n, hn⟩ := Int.eq_ofNat_of_zero_le (show 0 ≤ -(Int.log 2 x - 52) by omega)
    have hPn : (2 : ℚ) ^ (Int.log 2 x - 52) = ((2 : ℚ) ^ n)⁻¹ := by
      have : Int.log 2 x - 52 = -(n : ℤ) := by omega
      rw [this, zpow_neg, zpow_natCast]
    rw [hPn, div_inv_eq_mul]
    have hn0 : (0 : ℚ) < 2 ^ n := pow_pos (by norm_num) _
    have hr : k * 2 ^ n ≤ roundHalfEven (x * 2 ^ n) := by
      apply le_roundHalfEven
      push_cast
      exact mul_le_mul_of_nonneg_right h hn0.le
    have hr2 : ((k * 2 ^ n : ℤ) : ℚ) ≤ (roundHalfEven (x * 2 ^ n) : ℚ) := by exact_mod_cast hr
    push_cast at hr2
    rw [le_mul_inv_iff₀ hn0]
    exact hr2
  · have hr : (2 : ℤ) ^ (52 : ℕ) ≤ roundHalfEven (x / 2 ^ (Int.log 2 x - 52)) := by
      apply le_roundHalfEven
      push_cast
      exact hlo
    have hr2 : ((2 : ℚ)) ^ (52 : ℕ) ≤ (roundHalfEven (x / 2 ^ (Int.log 2 x - 52)) : ℚ) := by
      exact_mod_cast hr
    have hP2 : (2 : ℚ) ≤ 2 ^ (Int.log 2 x - 52) := by
      have : (2 : ℚ) ^ (1 : ℤ) ≤ 2 ^ (Int.log 2 x - 52) :=
        zpow_le_zpow_right₀ (by norm_num) (by omega)
      simpa using this
    have hk3 : (k : ℚ) ≤ 2 ^ (53 : ℕ) := by exact_mod_cast hk2
    calc (k : ℚ) ≤ 2 ^ (53 : ℕ) := hk3
      _ = 2 ^ (52 : ℕ) * 2 := by norm_num
      _ ≤ (roundHalfEven (x / 2 ^ (Int.log 2 x - 52)) : ℚ) * 2 ^ (Int.log 2 x - 52) :=
          mul_le_mul hr2 hP2 (by norm_num) (le_trans (by norm_num) hr2)

/-- Rounding does not rise above an integer the argument has not passed. -/
theorem float64_le {k : Int} {x : ℚ} (hx : 0 ≤ x) (hk2 : k < 2 ^ 53) (h : x ≤ (k : ℚ)) :
    float64 x ≤ (k : ℚ) := by
  rcases eq_or_lt_of_le hx with h0 | hxpos
  · rw [← h0, float64_zero]
    rw [← h0] at h
    exact h
  rw [float64_of_pos hxpos]
  obtain ⟨hlo, -⟩ := scaled_bounds hxpos
  have hP : (0 : ℚ) < 2 ^ (Int.log 2 x - 52) := zpow_pos (by norm_num) _
  rcases le_or_lt (Int.log 2 x - 52) 0 with he | he
  · obtain ⟨n, hn⟩ := Int.eq_ofNat_of_zero_le (show 0 ≤ -(Int.log 2 x - 52) by omega)
    have hPn : (2 : ℚ) ^ (Int.log 2 x - 52) = ((2 : ℚ) ^ n)⁻¹ := by
      have : Int.log 2 x - 52 = -(n : ℤ) := by omega
      rw [this, zpow_neg, zpow_natCast]
    rw [hPn, div_inv_eq_mul]
    have hn0 : (0 : ℚ) < 2 ^ n := pow_pos (by norm_num) _
    have hr : roundHalfEven (x * 2 ^ n) ≤ k * 2 ^ n := by
      apply roundHalfEven_le
      push_cast
      exact mul_le_mul_of_nonneg_right h hn0.le
    have hr2 : (roundHalfEven (x * 2 ^ n) : ℚ) ≤ ((k * 2 ^ n : ℤ) : ℚ) := by exact_mod_cast hr
    push_cast at hr2
    rw [mul_inv_le_iff₀ hn0]
    exact hr2
  · exfalso
    have hP2 : (2 : ℚ) ≤ 2 ^ (Int.log 2 x - 52) := by
      have : (2 : ℚ) ^ (1 : ℤ) ≤ 2 ^ (Int.log 2 x - 52) :=
        zpow_le_zpow_right₀ (by norm_num) (by omega)
      simpa using this
    have h1 : (2 : ℚ) ^ (52 : ℕ) * 2 ^ (Int.log 2 x - 52) ≤ x := (le_div_iff₀ hP).mp hlo
    have hk3 : (k : ℚ) < 2 ^ (53 : ℕ) := by exact_mod_cast hk2
    have : (2 : ℚ) ^ (53 : ℕ) ≤ x := by
      calc (2 : ℚ) ^ (53 : ℕ) = 2 ^ (52 : ℕ) * 2 := by norm_num
        _ ≤ 2 ^ (52 : ℕ) * 2 ^ (Int.log 2 x - 52) :=
            mul_le_mul_of_nonneg_left hP2 (by norm_num)
        _ ≤ x := h1
    linarith

/-- The relative error of rounding is at most `2^-53`. -/
theorem float64_le_rel {x : ℚ} (hx : 0 ≤ x) : float64 x ≤ x + x / 2 ^ (53 : ℕ) := by
  rcases eq_or_lt_of_le hx with h0 | hxpos
  · rw [← h0, float64_zero]; norm_num
  rw [float64_of_pos hxpos]
  obtain ⟨hlo, -⟩ := scaled_bounds hxpos
  have hP : (0 : ℚ) < 2 ^ (Int.log 2 x - 52) := zpow_pos (by norm_num) _
  have h1 : (2 : ℚ) ^ (52 : ℕ) * 2 ^ (Int.log 2 x - 52) ≤ x := (le_div_iff₀ hP).mp hlo
  have h2 := roundHalfEven_le_add_half (x / 2 ^ (Int.log 2 x - 52))
  have h3 : (roundHalfEven (x / 2 ^ (Int.log 2 x - 52)) : ℚ) * 2 ^ (Int.log 2 x - 52) ≤
      (x / 2 ^ (Int.log 2 x - 52) + 1 / 2) * 2 ^ (Int.log 2 x - 52) :=
    mul_le_mul_of_nonneg_right h2 hP.le
  have h4 : (x / 2 ^ (Int.log 2 x - 52) + 1 / 2) * 2 ^ (Int.log 2 x - 52) =
      x + 2 ^ (Int.log 2 x - 52) / 2 := by
    field_simp
    ring
  rw [h4] at h3
  have h5 : (2 : ℚ) ^ (Int.log 2 x - 52) / 2 ≤ x / 2 ^ (53 : ℕ) := by
    rw [div_le_div_iff₀ (by norm_num) (by norm_num)]
    have : (2 : ℚ) ^ (53 : ℕ) = 2 ^ (52 : ℕ) * 2 := by norm_num
    rw [this]
    nlinarith
  linarith

/-- An integer below `2^53` is a `float64`. -/
theorem float64_intCast {k : Int} (hk : 0 ≤ k) (hk2 : k < 2 ^ 53) : float64 (k : ℚ) = k :=
  le_antisymm (float64_le (by exact_mod_cast hk) hk2 le_rfl)
    (le_float64 hk (le_of_lt hk2) le_rfl)

theorem Hour_eq : Hour = 3600000000000 := by decide

theorem Day_eq : Day = 86400000000000 := by decide

theorem maxDuration_eq : maxDuration = 9223372036854775807 := by decide

/-- The value of `duration.Hours()` lies between the whole hours of the duration
and the next whole hour. -/
theorem Hours_bounds {d : Int} (h0 : 0 ≤ d) (hmax : d ≤ maxDuration) :
    ((d / Hour : Int) : ℚ) ≤ Duration.Hours d ∧
      Duration.Hours d ≤ ((d / Hour + 1 : Int) : ℚ) := by
  rw [maxDuration_eq] at hmax
  have hH : (0 : Int) ≤ Hour := by rw [Hour_eq]; norm_num
  have hdiv : d.tdiv Hour = d / Hour := Int.tdiv_eq_ediv h0 hH
  have hmod : d.tmod Hour = d % Hour := Int.tmod_eq_emod h0 hH
  have hHnn : 0 ≤ d / Hour := by rw [Hour_eq]; omega
  have hHlt : d / Hour + 1 < 2 ^ 53 := by rw [Hour_eq]; omega
  have hNnn : 0 ≤ d % Hour := by rw [Hour_eq]; omega
  have hNlt : d % Hour < 3600000000000 := by rw [Hour_eq]; omega
  unfold Duration.Hours
  rw [hdiv, hmod, float64_intCast hHnn (by omega), float64_intCast hNnn (by omega)]
  have hq0 : (0 : ℚ) ≤ ((d % Hour : Int) : ℚ) / (60 * 60 * 1000000000) :=
    div_nonneg (by exact_mod_cast hNnn) (by norm_num)
  have hq1 : ((d % Hour : Int) : ℚ) / (60 * 60 * 1000000000) ≤ ((1 : Int) : ℚ) := by
    rw [div_le_iff₀ (by norm_num)]
    have : ((d % Hour : Int) : ℚ) ≤ 3600000000000 := by exact_mod_cast hNlt.le
    push_cast
    linarith
  have hf0 := float64_nonneg hq0
  have hf1 := float64_le hq0 (by norm_num) hq1
  have hHq : (0 : ℚ) ≤ ((d / Hour : Int) : ℚ) := by exact_mod_cast hHnn
  constructor
  · exact le_float64 hHnn (by omega) (by linarith)
  · apply float64_le (by linarith) hHlt
    push_cast
    push_cast at hf1
    linarith

/-- The day count printed for a duration: the whole days of the duration, or
one more; the whole days exactly unless the duration is within the last hour
before a whole number of days. -/
theorem daysAgo_bounds {d : Int} (h0 : 0 ≤ d) (hmax : d ≤ maxDuration) :
    d / Day ≤ daysAgo d ∧ daysAgo d ≤ d / Day + 1 ∧
      (d % Day < 23 * Hour → daysAgo d = d / Day) := by
  obtain ⟨hlo, hhi⟩ := Hours_bounds h0 hmax
  rw [maxDuration_eq] at hmax
  have hKnn : 0 ≤ d / Day := by rw [Day_eq]; omega
  have hKlt : d / Day + 1 < 2 ^ 53 := by rw [Day_eq]; omega
  have hHK : 24 * (d / Day) ≤ d / Hour := by rw [Day_eq, Hour_eq]; omega
  have hHK2 : d / Hour + 1 ≤ 24 * (d / Day) + 24 := by rw [Day_eq, Hour_eq]; omega
  have hHKq : (24 : ℚ) * ((d / Day : Int) : ℚ) ≤ ((d / Hour : Int) : ℚ) := by exact_mod_cast hHK
  have hHK2q : ((d / Hour + 1 : Int) : ℚ) ≤ 24 * ((d / Day : Int) : ℚ) + 24 := by
    exact_mod_cast hHK2
  have hKq : (0 : ℚ) ≤ ((d / Day : Int) : ℚ) := by exact_mod_cast hKnn
  have hx0 : (0 : ℚ) ≤ Duration.Hours d / 24 := by
    apply div_nonneg _ (by norm_num)
    linarith
  have hg0 : ((d / Day : Int) : ℚ) ≤ float64 (Duration.Hours d / 24) := by
    apply le_float64 hKnn (by omega)
    rw [le_div_iff₀ (by norm_num)]
    linarith
  have hg1 : float64 (Duration.Hours d / 24) ≤ ((d / Day + 1 : Int) : ℚ) := by
    apply float64_le hx0 hKlt
    rw [div_le_iff₀ (by norm_num)]
    push_cast
    linarith
  have hgnn : (0 : ℚ) ≤ float64 (Duration.Hours d / 24) := le_trans hKq hg0
  have hval : daysAgo d = ⌊float64 (Duration.Hours d / 24)⌋ := by
    unfold daysAgo float64ToInt
    rw [if_pos hgnn]
  rw [hval]
  refine ⟨Int.le_floor.mpr hg0, ?_, ?_⟩
  · have : ⌊float64 (Duration.Hours d / 24)⌋ ≤ ⌊((d / Day + 1 : Int) : ℚ)⌋ :=
      Int.floor_le_floor hg1
    rwa [Int.floor_intCast] at this
  · intro hrem
    have hH3 : d / Hour + 1 ≤ 24 * (d / Day) + 23 := by
      rw [Day_eq, Hour_eq] at *
      omega
    have hH3q : ((d / Hour + 1 : Int) : ℚ) ≤ 24 * ((d / Day : Int) : ℚ) + 23 := by
      exact_mod_cast hH3
    have hrel := float64_le_rel hx0
    have hx1 : Duration.Hours d / 24 ≤ ((d / Day : Int) : ℚ) + 23 / 24 := by
      rw [div_le_iff₀ (by norm_num)]
      linarith
    have hKb : ((d / Day : Int) : ℚ) + 1 < 2 ^ (48 : ℕ) := by
      have : d / Day + 1 < 2 ^ 48 := by rw [Day_eq]; omega
      exact_mod_cast this
    have hlt : float64 (Duration.Hours d / 24) < ((d / Day : Int) : ℚ) + 1 := by
      have h53 : (2 : ℚ) ^ (53 : ℕ) = 32 * 2 ^ (48 : ℕ) := by norm_num
      have hxb : Duration.Hours d / 24 / 2 ^ (53 : ℕ) < 1 / 32 := by
        rw [div_lt_iff₀ (by norm_num), h53]
        linarith
      linarith
    apply le_antisymm
    · have : ⌊float64 (Duration.Hours d / 24)⌋ < d / Day + 1 := by
        rw [Int.floor_lt]
        push_cast
        exact hlt
      omega
    · exact Int.le_floor.mpr hg0

theorem roundHalfEven_eq_of_near {r : ℚ} {m : Int} (h1 : (m : ℚ) - 1 / 2 < r)
    (h2 : r < (m : ℚ) + 1 / 2) : roundHalfEven r = m := by
  have hf1 := Int.floor_le r
  have hf2 := Int.lt_floor_add_one r
  have hcases : ⌊r⌋ = m ∨ ⌊r⌋ = m - 1 := by
    have a1 : m - 1 ≤ ⌊r⌋ := by
      apply Int.le_floor.mpr
      push_cast
      linarith
    have a2 : ⌊r⌋ < m + 1 := by
      apply Int.floor_lt.mpr
      push_cast
      linarith
    omega
  unfold roundHalfEven
  rcases hcases with h | h
  · rw [h]
    rw [if_pos (by linarith)]
  · rw [h]
    have hlt : ¬ (r - ((m - 1 : Int) : ℚ) < 1 / 2) := by
      push_cast
      linarith
    have hgt : 1 / 2 < r - ((m - 1 : Int) : ℚ) := by
      push_cast
      linarith
    rw [if_neg hlt, if_pos hgt]
    omega

/-- A value whose exponent and nearest multiple of the unit in the last place
are known rounds to that multiple. -/
theorem float64_eq_of_near {x : ℚ} {e m : Int} (hlo : (2 : ℚ) ^ (e + 52) ≤ x)
    (hhi : x < (2 : ℚ) ^ (e + 53)) (h1 : (m : ℚ) - 1 / 2 < x / 2 ^ e)
    (h2 : x / 2 ^ e < (m : ℚ) + 1 / 2) : float64 x = (m : ℚ) * 2 ^ e := by
  have hx : 0 < x := lt_of_lt_of_le (zpow_pos (by norm_num) _) hlo
  have hlog : Int.log 2 x = e + 52 := by
    have a1 : e + 52 ≤ Int.log 2 x :=
      (Int.zpow_le_iff_le_log (by norm_num) hx).mp (by exact_mod_cast hlo)
    have a2 : Int.log 2 x < e + 53 :=
      (Int.lt_zpow_iff_log_lt (by norm_num) hx).mp (by exact_mod_cast hhi)
    omega
  rw [float64_of_pos hx, hlog]
  have he : e + 52 - 52 = e := by omega
  rw [he, roundHalfEven_eq_of_near h1 h2]

/-- The float64 sum in `Duration.Hours` can round up to the next whole hour: one
nanosecond before 171 whole days the count printed is 171, not 170. -/
theorem daysAgo_rounds_up : daysAgo (171 * Day - 1) = 171 ∧ (171 * Day - 1) / Day = 170 := by
  refine ⟨?_, by decide⟩
  have hd : 171 * Day - 1 = 14774399999999999 := by decide
  have hdiv : (14774399999999999 : Int).tdiv Hour = 4103 := by decide
  have hmod : (14774399999999999 : Int).tmod Hour = 3599999999999 := by decide
  have hf : float64 (((3599999999999 : Int) : ℚ) / (60 * 60 * 1000000000)) =
      ((9007199254738490 : Int) : ℚ) * 2 ^ (-53 : Int) := by
    apply float64_eq_of_near <;> norm_num
  have hh : Duration.Hours 14774399999999999 = 4104 := by
    unfold Duration.Hours
    rw [hdiv, hmod, float64_intCast (by norm_num) (by norm_num),
      float64_intCast (by norm_num) (by norm_num), hf]
    have : float64 (((4103 : Int) : ℚ) + ((9007199254738490 : Int) : ℚ) * 2 ^ (-53 : Int)) =
        ((4512395720392704 : Int) : ℚ) * 2 ^ (-40 : Int) := by
      apply float64_eq_of_near <;> norm_num
    rw [this]
    norm_num
  unfold daysAgo
  rw [hd, hh]
  have h171 : float64 ((4104 : ℚ) / 24) = 171 := by
    have : (4104 : ℚ) / 24 = ((171 : Int) : ℚ) := by norm_num
    rw [this, float64_intCast (by norm_num) (by norm_num)]
    norm_num
  rw [h171]
  unfold float64ToInt
  norm_num

/-! ## Consequences of the contract of `sort.Sort` -/

theorem Less_eq_decide {s : List Job} {x y : Nat} (hx : x < s.length) (hy : y < s.length) :
    byTimestamp.Less s x y = decide (timestampOf s[x] < timestampOf s[y]) := by
  unfold byTimestamp.Less
  rw [List.getElem?_eq_getElem hx, List.getElem?_eq_getElem hy]

/-- After `sort.Sort` the timestamps ascend along the slice. -/
theorem SortContract.pairwise {sortSort : List Job → List Job} (h : SortContract sortSort)
    (s : List Job) :
    (sortSort s).Pairwise (fun a b => timestampOf a ≤ timestampOf b) := by
  rw [List.pairwise_iff_getElem]
  intro i j hi hj hij
  have hless := h.ascending s i j hij hj
  rw [Less_eq_decide hj hi] at hless
  simpa using hless

/-- A list in strictly ascending timestamp order is the only ascending
arrangement of its elements. -/
theorem eq_of_perm_of_ascending {l₁ l₂ : List Job} (hp : l₁.Perm l₂)
    (h₁ : l₁.Pairwise (fun a b => timestampOf a ≤ timestampOf b))
    (h₂ : l₂.Pairwise (fun a b => timestampOf a < timestampOf b)) : l₁ = l₂ := by
  induction l₂ generalizing l₁ with
  | nil => exact hp.eq_nil
  | cons a t ih =>
    cases l₁ with
    | nil => exact absurd hp.symm.eq_nil (by simp)
    | cons b t₁ =>
      rw [List.pairwise_cons] at h₁ h₂
      have hba : b = a := by
        have hb : b ∈ a :: t := hp.mem_iff.mp (List.mem_cons_self _ _)
        rcases List.mem_cons.mp hb with hb | hb
        · exact hb
        · have ha : a ∈ b :: t₁ := hp.mem_iff.mpr (List.mem_cons_self _ _)
          rcases List.mem_cons.mp ha with ha | ha
          · exact ha.symm
          · have := h₁.1 a ha
            have := h₂.1 b hb
            omega
      subst hba
      rw [ih (List.Perm.cons_inv hp) h₁.2 h₂.2]

/-- The test `stamp.Before(past)` holds exactly when the duration from `stamp` to
`now` exceeds 7×24 hours. -/
theorem before_past_iff (now stamp : Int) :
    timeBefore stamp (timeAdd now ((-24 * 7) * Hour)) = true ↔
      7 * 24 * Hour < timeSub now stamp := by
  unfold timeBefore timeAdd timeSub
  rw [maxDuration_eq, Hour_eq]
  have hmin : minDuration = -9223372036854775808 := by decide
  rw [hmin, decide_eq_true_eq]
  split_ifs <;> omega

theorem timeSub_le_max (t u : Int) : timeSub t u ≤ maxDuration := by
  unfold timeSub
  rw [maxDuration_eq]
  have hmin : minDuration = -9223372036854775808 := by decide
  rw [hmin]
  split_ifs <;> omega

/-- On a duration that is not negative the conversion `int(...)` is the floor. -/
theorem daysAgo_eq_floor {d : Int} (h0 : 0 ≤ d) (hmax : d ≤ maxDuration) :
    daysAgo d = ⌊float64 (Duration.Hours d / 24)⌋ := by
  obtain ⟨hlo, -⟩ := Hours_bounds h0 hmax
  have hH : (0 : ℚ) ≤ ((d / Hour : Int) : ℚ) := by
    have : 0 ≤ d / Hour := by rw [Hour_eq]; omega
    exact_mod_cast this
  have hx0 : (0 : ℚ) ≤ Duration.Hours d / 24 := div_nonneg (le_trans hH hlo) (by norm_num)
  unfold daysAgo float64ToInt
  rw [if_pos (float64_nonneg hx0)]

theorem staleBody_eq (now : Int) (target : List String) {job : Job}
    (h : jobEnriched job = true) :
    staleBody now target job =
      some (if isStale now job = true then target ++ [staleFinding now job] else target) := by
  unfold jobEnriched at h
  cases hov : job.Overview with
  | none => rw [hov] at h; simp at h
  | some ov =>
    rw [hov] at h
    simp only [Bool.or_eq_true, decide_eq_true_eq] at h
    unfold staleBody
    simp only [hov]
    by_cases hn : 0 < ov.LastBuild.Number
    · rw [if_pos (by simpa using hn)]
      have hsome : ov.LastBuild.Overview.isSome = true := by
        rcases h with h | h
        · omega
        · exact h
      obtain ⟨build, hb⟩ := Option.isSome_iff_exists.mp hsome
      simp only [hb]
      have hts : timestampOf job = build.Timestamp := by simp [timestampOf, hov, hb]
      have hnum : lastBuildNumber job = ov.LastBuild.Number := by simp [lastBuildNumber, hov]
      by_cases ht : 0 < build.Timestamp
      · rw [if_pos (by simpa using ht)]
        by_cases hbef : timeBefore (timeUnix (build.Timestamp.tdiv 1000) 0)
            (timeAdd now ((-24 * 7) * Hour)) = true
        · rw [if_pos hbef]
          have hst : isStale now job = true := by
            unfold isStale elapsed
            rw [hts, hnum]
            simp only [Bool.and_eq_true, decide_eq_true_eq]
            exact ⟨⟨hn, ht⟩, (before_past_iff _ _).mp hbef⟩
          rw [if_pos hst]
          have hpos : 0 ≤ timeSub now (timeUnix (build.Timestamp.tdiv 1000) 0) := by
            have := (before_past_iff _ _).mp hbef
            rw [Hour_eq] at this
            omega
          rw [daysAgo_eq_floor hpos (timeSub_le_max _ _)]
          unfold staleFinding elapsed
          rw [hts]
        · rw [if_neg hbef]
          have hst : ¬ isStale now job = true := by
            unfold isStale elapsed
            rw [hts, hnum]
            simp only [Bool.and_eq_true, decide_eq_true_eq]
            rintro ⟨-, h3⟩
            exact hbef ((before_past_iff _ _).mpr h3)
          rw [if_neg hst]
      · rw [if_neg (by simpa using ht)]
        have hst : ¬ isStale now job = true := by
          unfold isStale
          rw [hts]
          simp only [Bool.and_eq_true, decide_eq_true_eq]
          rintro ⟨⟨-, h2⟩, -⟩
          exact ht h2
        rw [if_neg hst]
    · rw [if_neg (by simpa using hn)]
      have hst : ¬ isStale now job = true := by
        unfold isStale
        simp only [lastBuildNumber, hov, Bool.and_eq_true, decide_eq_true_eq]
        rintro ⟨⟨h1, -⟩, -⟩
        exact hn h1
      rw [if_neg hst]

theorem foldlM_staleBody (now : Int) (jobs : List Job)
    (h : ∀ job ∈ jobs, jobEnriched job = true) (target : List String) :
    jobs.foldlM (staleBody now) target =
      some (target ++ (jobs.filter (isStale now)).map (staleFinding now)) := by
  induction jobs generalizing target with
  | nil => simp
  | cons job rest ih =>
    have hj := h job (List.mem_cons_self _ _)
    have hrest : ∀ k ∈ rest, jobEnriched k = true := fun k hk => h k (List.mem_cons_of_mem _ hk)
    rw [List.foldlM_cons, staleBody_eq now target hj]
    simp only [Option.bind_eq_bind, Option.some_bind]
    rw [ih hrest]
    by_cases hst : isStale now job = true
    · simp [List.filter_cons, hst]
    · simp [List.filter_cons, hst]

/-! ## The insertion sort of Go's package `sort` meets the contract -/

theorem Swap_adjacent (p q : List Job) (u v : Job) :
    byTimestamp.Swap (p ++ u :: v :: q) (p.length + 1) p.length = p ++ v :: u :: q := by
  have h1 : (p ++ u :: v :: q)[p.length + 1]? = some v := by
    rw [List.getElem?_append_right (by omega)]
    simp
  have h2 : (p ++ u :: v :: q)[p.length]? = some u := by
    rw [List.getElem?_append_right (by omega)]
    simp
  unfold byTimestamp.Swap
  rw [h1, h2]
  simp only
  rw [List.set_append, if_neg (by omega), List.set_append]
  simp

theorem Less_adjacent (p q : List Job) (u v : Job) :
    byTimestamp.Less (p ++ u :: v :: q) (p.length + 1) p.length =
      decide (timestampOf v < timestampOf u) := by
  have h1 : (p ++ u :: v :: q)[p.length + 1]? = some v := by
    rw [List.getElem?_append_right (by omega)]
    simp
  have h2 : (p ++ u :: v :: q)[p.length]? = some u := by
    rw [List.getElem?_append_right (by omega)]
    simp
  unfold byTimestamp.Less
  rw [h1, h2]

/-- The inner loop moves the element at position `j` down into the ascending
run before it and touches nothing behind it. -/
theorem insertionSortInner_spec (j : Nat) (p q : List Job) (x : Job) (hj : p.length = j)
    (hp : p.Pairwise (fun a b => timestampOf a ≤ timestampOf b)) :
    ∃ r, insertionSortInner (p ++ x :: q) 0 j = r ++ q ∧ r.Perm (p ++ [x]) ∧
      r.Pairwise (fun a b => timestampOf a ≤ timestampOf b) := by
  induction j generalizing p q with
  | zero =>
    have : p = [] := List.length_eq_zero.mp hj
    subst this
    exact ⟨[x], by simp [insertionSortInner], List.Perm.refl _, by simp⟩
  | succ j ih =>
    rcases List.eq_nil_or_concat p with hnil | ⟨p', u, hpu⟩
    · subst hnil; simp at hj
    rw [List.concat_eq_append] at hpu
    subst hpu
    have hlen : p'.length = j := by simpa using hj
    have hp' : p'.Pairwise (fun a b => timestampOf a ≤ timestampOf b) :=
      (List.pairwise_append.mp hp).1
    have hpu : ∀ a ∈ p', timestampOf a ≤ timestampOf u := fun a ha =>
      (List.pairwise_append.mp hp).2.2 a ha u (List.mem_singleton_self u)
    have hs : p' ++ [u] ++ x :: q = p' ++ u :: x :: q := by simp
    rw [hs]
    subst hlen
    unfold insertionSortInner
    rw [Less_adjacent]
    by_cases hlt : timestampOf x < timestampOf u
    · rw [if_pos (by simp [hlt]), Swap_adjacent]
      obtain ⟨r, hr, hperm, hsorted⟩ := ih p' (u :: q) rfl hp'
      refine ⟨r ++ [u], by rw [hr]; simp, ?_, ?_⟩
      · calc (r ++ [u]).Perm ((p' ++ [x]) ++ [u]) := List.Perm.append_right _ hperm
          _ = p' ++ ([x] ++ [u]) := by simp
          _ |>.Perm (p' ++ ([u] ++ [x])) :=
              List.Perm.append_left _ (List.perm_append_comm)
          _ = p' ++ [u] ++ [x] := by simp
      · rw [List.pairwise_append]
        refine ⟨hsorted, by simp, ?_⟩
        intro a ha b hb
        rw [List.mem_singleton] at hb
        subst hb
        have ha2 : a ∈ p' ++ [x] := hperm.mem_iff.mp ha
        rcases List.mem_append.mp ha2 with ha3 | ha3
        · exact hpu a ha3
        · rw [List.mem_singleton] at ha3
          subst ha3
          exact le_of_lt hlt
    · rw [if_neg (by simp [hlt])]
      refine ⟨p' ++ [u] ++ [x], by simp, List.Perm.refl _, ?_⟩
      rw [List.pairwise_append]
      refine ⟨hp, by simp, ?_⟩
      intro a ha b hb
      rw [List.mem_singleton] at hb
      subst hb
      have hux : timestampOf u ≤ timestampOf b := not_lt.mp hlt
      rcases List.mem_append.mp ha with ha3 | ha3
      · exact le_trans (hpu a ha3) hux
      · rw [List.mem_singleton] at ha3
        subst ha3
        exact hux

/-- The outer loop, started at position `p.length` behind an ascending run `p`,
extends the run over the next `m` positions. -/
theorem insertionSort_loop (m : Nat) (p q : List Job) (hm : m ≤ q.length)
    (hp : p.Pairwise (fun a b => timestampOf a ≤ timestampOf b)) :
    ∃ r, (List.range' p.length m).foldl (fun t i => insertionSortInner t 0 i) (p ++ q) =
        r ++ q.drop m ∧ r.Perm (p ++ q.take m) ∧
      r.Pairwise (fun a b => timestampOf a ≤ timestampOf b) := by
  induction m generalizing p q with
  | zero => exact ⟨p, by simp, by simp, hp⟩
  | succ m ih =>
    cases q with
    | nil => simp at hm
    | cons x q' =>
      rw [List.range'_succ, List.foldl_cons]
      obtain ⟨r, hr, hperm, hsorted⟩ := insertionSortInner_spec p.length p q' x rfl hp
      rw [hr]
      have hlen : r.length = p.length + 1 := by
        have := hperm.length_eq
        simpa using this
      rw [← hlen]
      obtain ⟨r', hr', hperm', hsorted'⟩ :=
        ih r q' (by simpa using hm) hsorted
      refine ⟨r', by rw [hr']; simp, ?_, hsorted'⟩
      calc r'.Perm (r ++ q'.take m) := hperm'
        _ |>.Perm ((p ++ [x]) ++ q'.take m) := List.Perm.append_right _ hperm
        _ = p ++ (x :: q').take (m + 1) := by simp

/-- The short-slice path of `sort.Sort` yields an ascending permutation. -/
theorem sortShort_spec (s : List Job) :
    (sortShort s).Perm s ∧
      (sortShort s).Pairwise (fun a b => timestampOf a ≤ timestampOf b) := by
  unfold sortShort insertionSort byTimestamp.Len
  cases s with
  | nil => simp
  | cons x q =>
    obtain ⟨r, hr, hperm, hsorted⟩ :=
      insertionSort_loop q.length [x] q le_rfl (by simp)
    have h1 : (x :: q).length - (0 + 1) = q.length := by simp
    have h2 : (0 + 1 : Nat) = [x].length := by simp
    rw [h1, h2]
    have h3 : x :: q = [x] ++ q := by simp
    rw [h3, hr]
    simp only [List.drop_length, List.append_nil, List.take_length] at hperm ⊢
    exact ⟨hperm, hsorted⟩

/-- The short-slice path of `sort.Sort` meets the contract of `sort.Sort`. -/
theorem sortShort_contract : SortContract sortShort where
  perm := fun s => (sortShort_spec s).1
  ascending := by
    intro s x y hxy hy
    unfold byTimestamp.Len at hy
    rw [Less_eq_decide hy (by omega)]
    have := List.pairwise_iff_getElem.mp (sortShort_spec s).2 x y (by omega) hy hxy
    simpa using this

/-! ## The text of a stale finding determines the job name -/

theorem digitChar_ne_space (k : Nat) : Nat.digitChar k ≠ ' ' := by
  by_cases h : k < 16
  · interval_cases k <;> decide
  · unfold Nat.digitChar
    repeat rw [if_neg (by omega)]
    decide

theorem toDigitsCore_no_space (fuel : Nat) :
    ∀ (n : Nat) (ds : List Char), (∀ c ∈ ds, c ≠ ' ') →
      ∀ c ∈ Nat.toDigitsCore 10 fuel n ds, c ≠ ' ' := by
  induction fuel with
  | zero =>
    intro n ds hds c hc
    simp only [Nat.toDigitsCore] at hc
    exact hds c hc
  | succ fuel ih =>
    intro n ds hds c hc
    have hcons : ∀ c ∈ Nat.digitChar (n % 10) :: ds, c ≠ ' ' := by
      intro c hc
      rcases List.mem_cons.mp hc with h | h
      · rw [h]; exact digitChar_ne_space _
      · exact hds c h
    simp only [Nat.toDigitsCore] at hc
    split_ifs at hc
    · exact hcons c hc
    · exact ih _ _ hcons c hc

theorem Itoa_no_space (n : Int) : ' ' ∉ (Itoa n).data := by
  have hrepr : ∀ k : Nat, ∀ c ∈ (Nat.repr k).data, c ≠ ' ' := by
    intro k c hc
    unfold Nat.repr Nat.toDigits at hc
    exact toDigitsCore_no_space _ _ _ (by simp) c hc
  intro hmem
  unfold Itoa at hmem
  split_ifs at hmem
  · rw [String.data_append] at hmem
    rcases List.mem_append.mp hmem with h | h
    · revert h; decide
    · exact hrepr _ _ h rfl
  · exact hrepr _ _ hmem rfl

/-- Two lists that agree after their last occurrence of a separator agree
before it. -/
theorem eq_of_append_sep_eq {c : Char} :
    ∀ (a b x y : List Char), c ∉ x → c ∉ y → a ++ c :: x = b ++ c :: y → a = b := by
  intro a
  induction a with
  | nil =>
    intro b x y hx _ h
    cases b with
    | nil => rfl
    | cons d b' =>
      exfalso
      simp only [List.nil_append, List.cons_append, List.cons.injEq] at h
      apply hx
      rw [h.2]
      simp
  | cons e a' ih =>
    intro b x y hx hy h
    cases b with
    | nil =>
      exfalso
      simp only [List.nil_append, List.cons_append, List.cons.injEq] at h
      apply hy
      rw [← h.2]
      simp
    | cons d b' =>
      simp only [List.cons_append, List.cons.injEq] at h
      rw [h.1, ih b' x y hx hy h.2]

/-- The name in front of the day count can be read back from a finding. -/
theorem finding_name_inj (a b : String) (m n : Int)
    (h : a ++ " " ++ Itoa m ++ " days ago" = b ++ " " ++ Itoa n ++ " days ago") : a = b := by
  have hd := congrArg String.data h
  simp only [String.data_append] at hd
  have hd2 := List.append_cancel_right hd
  rw [List.append_assoc, List.append_assoc] at hd2
  exact String.ext (eq_of_append_sep_eq a.data b.data _ _ (Itoa_no_space m) (Itoa_no_space n) hd2)

/-! ## The derivations in closed form -/

theorem getNeverPassed_eq (response : JenkinsResponse)
    (h : ∀ job ∈ response.Jobs, hasOverview job = true) :
    getNeverPassed response = some ((response.Jobs.filter (fun job =>
      decide (0 < lastBuildNumber job) && decide (lastSuccessfulBuildNumber job = 0))).map
        Job.Name, response) := by
  unfold getNeverPassed
  rw [foldlM_neverPassedBody _ h]
  simp

theorem getNeverRun_eq (response : JenkinsResponse)
    (h : ∀ job ∈ response.Jobs, hasOverview job = true) :
    getNeverRun response = some ((response.Jobs.filter (fun job =>
      decide (lastBuildNumber job = 0) && decide (lastSuccessfulBuildNumber job = 0))).map
        Job.Name, response) := by
  unfold getNeverRun
  rw [foldlM_neverRunBody _ h]
  simp

/-- A step of the stale loop adds nothing, or one finding for a job that has
built. -/
theorem staleBody_some {now : Int} {target out : List String} {job : Job}
    (h : staleBody now target job = some out) :
    out = target ∨ (0 < lastBuildNumber job ∧
      ∃ n, out = target ++ [job.Name ++ " " ++ Itoa n ++ " days ago"]) := by
  unfold staleBody at h
  cases hov : job.Overview with
  | none => rw [hov] at h; simp at h
  | some ov =>
    rw [hov] at h
    simp only at h
    by_cases hn : 0 < ov.LastBuild.Number
    · rw [if_pos (by simpa using hn)] at h
      cases hb : ov.LastBuild.Overview with
      | none => rw [hb] at h; simp at h
      | some build =>
        rw [hb] at h
        simp only at h
        split_ifs at h
        · right
          exact ⟨by simpa [lastBuildNumber, hov] using hn, _, (Option.some.inj h).symm⟩
        · left; exact (Option.some.inj h).symm
        · left; exact (Option.some.inj h).symm
    · rw [if_neg (by simpa using hn)] at h
      left; exact (Option.some.inj h).symm

theorem foldlM_staleBody_mem (now : Int) (jobs : List Job) :
    ∀ (target out : List String), jobs.foldlM (staleBody now) target = some out →
      ∀ f ∈ out, f ∈ target ∨ ∃ k ∈ jobs, 0 < lastBuildNumber k ∧
        ∃ n, f = k.Name ++ " " ++ Itoa n ++ " days ago" := by
  induction jobs with
  | nil =>
    intro target out h f hf
    simp only [List.foldlM_nil, Option.pure_def, Option.some.injEq] at h
    subst h
    exact Or.inl hf
  | cons job rest ih =>
    intro target out h f hf
    rw [List.foldlM_cons] at h
    cases hb : staleBody now target job with
    | none => rw [hb] at h; simp at h
    | some mid =>
      rw [hb] at h
      simp only [Option.bind_eq_bind, Option.some_bind] at h
      rcases ih mid out h f hf with hmid | ⟨k, hk, hpos, n, hn⟩
      · rcases staleBody_some hb with heq | ⟨hpos, n, heq⟩
        · rw [heq] at hmid; exact Or.inl hmid
        · rw [heq] at hmid
          rcases List.mem_append.mp hmid with h1 | h1
          · exact Or.inl h1
          · rw [List.mem_singleton] at h1
            exact Or.inr ⟨job, List.mem_cons_self _ _, hpos, n, h1⟩
      · exact Or.inr ⟨k, List.mem_cons_of_mem _ hk, hpos, n, hn⟩

theorem getStaleJobs_eq (sortSort : List Job → List Job) (now : Int)
    (response : JenkinsResponse)
    (h : ∀ job ∈ sortSort response.Jobs, jobEnriched job = true) :
    getStaleJobs sortSort now response =
      some (((sortSort response.Jobs).filter (isStale now)).map (staleFinding now),
        ⟨sortSort response.Jobs, response.Views⟩) := by
  unfold getStaleJobs
  simp only
  rw [foldlM_staleBody now _ h]
  simp

/-- Away from the last hour before a whole number of days, the day count of a
finding is the number of whole days elapsed. -/
theorem floor_days_eq {d : Int} (h0 : 0 ≤ d) (hmax : d ≤ maxDuration)
    (hrem : d % Day < 23 * Hour) : ⌊float64 (Duration.Hours d / 24)⌋ = d / Day := by
  rw [← daysAgo_eq_floor h0 hmax]
  exact (daysAgo_bounds h0 hmax).2.2 hrem

/-- What `getStaleJobs` does on the scenario: one finding, for A, and the job
sequence left in the order B, A, C. -/
theorem getStaleJobs_scenario (sortSort : List Job → List Job) (hs : SortContract sortSort)
    (nowMs : Int) (hnow : 8 * 86400000 < nowMs) :
    getStaleJobs sortSort (nowMs * 1000000) (scenario nowMs) =
      some (["A 8 days ago"],
        ⟨[jobB, jobA (nowMs - 8 * 86400000), jobC (nowMs - 86400000)], [teamView]⟩) := by
  have hsort : sortSort (scenario nowMs).Jobs =
      [jobB, jobA (nowMs - 8 * 86400000), jobC (nowMs - 86400000)] := by
    apply eq_of_perm_of_ascending _ (hs.pairwise _)
    · have hA : timestampOf (jobA (nowMs - 8 * 86400000)) = nowMs - 8 * 86400000 := rfl
      have hB : timestampOf jobB = 0 := rfl
      have hC : timestampOf (jobC (nowMs - 86400000)) = nowMs - 86400000 := rfl
      simp only [List.pairwise_cons, List.mem_cons, List.mem_singleton, forall_eq_or_imp,
        forall_eq, hA, hB, hC, List.not_mem_nil, false_implies, implies_true,
        List.Pairwise.nil, and_true]
      omega
    · exact (hs.perm _).trans (List.Perm.swap _ _ _)
  have henr : ∀ job ∈ sortSort (scenario nowMs).Jobs, jobEnriched job = true := by
    rw [hsort]
    intro job hjob
    simp only [List.mem_cons, List.mem_singleton, List.not_mem_nil, or_false] at hjob
    rcases hjob with h | h | h <;> subst h <;> rfl
  rw [getStaleJobs_eq sortSort _ _ henr, hsort]
  have hts : (nowMs - 8 * 86400000).tdiv 1000 = (nowMs - 8 * 86400000) / 1000 :=
    Int.tdiv_eq_ediv (by omega) (by norm_num)
  have htsC : (nowMs - 86400000).tdiv 1000 = (nowMs - 86400000) / 1000 :=
    Int.tdiv_eq_ediv (by omega) (by norm_num)
  have hmin : minDuration = -9223372036854775808 := by decide
  have hB : isStale (nowMs * 1000000) jobB = false := by
    have : lastBuildNumber jobB = 0 := rfl
    simp [isStale, this]
  have helA : elapsed (nowMs * 1000000) (jobA (nowMs - 8 * 86400000)) =
      nowMs * 1000000 - (nowMs - 8 * 86400000) / 1000 * 1000000000 := by
    have hA : timestampOf (jobA (nowMs - 8 * 86400000)) = nowMs - 8 * 86400000 := rfl
    unfold elapsed timeSub timeUnix
    rw [hA, hts, maxDuration_eq, hmin]
    split_ifs <;> omega
  have hA : isStale (nowMs * 1000000) (jobA (nowMs - 8 * 86400000)) = true := by
    have h1 : lastBuildNumber (jobA (nowMs - 8 * 86400000)) = 5 := rfl
    have h2 : timestampOf (jobA (nowMs - 8 * 86400000)) = nowMs - 8 * 86400000 := rfl
    unfold isStale
    rw [h1, h2, helA, Hour_eq]
    simp only [Bool.and_eq_true, decide_eq_true_eq]
    omega
  have hC : isStale (nowMs * 1000000) (jobC (nowMs - 86400000)) = false := by
    have h2 : timestampOf (jobC (nowMs - 86400000)) = nowMs - 86400000 := rfl
    have hel : elapsed (nowMs * 1000000) (jobC (nowMs - 86400000)) =
        nowMs * 1000000 - (nowMs - 86400000) / 1000 * 1000000000 := by
      unfold elapsed timeSub timeUnix
      rw [h2, htsC, maxDuration_eq, hmin]
      split_ifs <;> omega
    unfold isStale
    rw [hel, Hour_eq]
    simp only [Bool.and_eq_false_iff, decide_eq_false_iff_not]
    right
    omega
  have hfind : staleFinding (nowMs * 1000000) (jobA (nowMs - 8 * 86400000)) =
      "A 8 days ago" := by
    unfold staleFinding
    rw [floor_days_eq (by rw [helA]; omega) (by rw [helA, maxDuration_eq]; omega)
      (by rw [helA, Day_eq, Hour_eq]; omega)]
    have h8 : elapsed (nowMs * 1000000) (jobA (nowMs - 8 * 86400000)) / Day = 8 := by
      rw [helA, Day_eq]; omega
    rw [h8]
    show "A" ++ " " ++ Itoa 8 ++ " days ago" = "A 8 days ago"
    decide
  have hfilter : List.filter (isStale (nowMs * 1000000))
      [jobB, jobA (nowMs - 8 * 86400000), jobC (nowMs - 86400000)] =
      [jobA (nowMs - 8 * 86400000)] := by
    simp only [List.filter, hA, hB, hC]
  rw [hfilter]
  simp only [List.map, hfind]
  rfl

/-- The marking loop of `showJobsOutsideViews` reads the views only. -/
theorem showJobsOutsideViews_eq (response : JenkinsResponse)
    (h : ∀ view ∈ response.Views, view.Detail.isSome = true) :
    ∃ marked, response.Views.foldlM markView (fun _ => false) = some marked ∧
      showJobsOutsideViews response =
        some ((response.Jobs.filter (fun job => marked job.Name == false)).map Job.Name,
          response) := by
  obtain ⟨marked, hm, -⟩ := foldlM_markView response.Views h (fun _ => false)
  refine ⟨marked, hm, ?_⟩
  unfold showJobsOutsideViews
  rw [hm]
  simp only
  rw [unallocatedJobs_eq]

theorem getNeverPassed_after {response after : JenkinsResponse} {out : List String}
    (h : getNeverPassed response = some (out, after)) : after = response := by
  unfold getNeverPassed at h
  split at h
  · simp at h
  · simp only [Option.some.injEq, Prod.mk.injEq] at h
    exact h.2.symm

theorem getNeverRun_after {response after : JenkinsResponse} {out : List String}
    (h : getNeverRun response = some (out, after)) : after = response := by
  unfold getNeverRun at h
  split at h
  · simp at h
  · simp only [Option.some.injEq, Prod.mk.injEq] at h
    exact h.2.symm

theorem showJobsOutsideViews_after {response after : JenkinsResponse} {out : List String}
    (h : showJobsOutsideViews response = some (out, after)) : after = response := by
  unfold showJobsOutsideViews at h
  split at h
  · simp at h
  · simp only [Option.some.injEq, Prod.mk.injEq] at h
    exact h.2.symm

theorem getStaleJobs_after {sortSort : List Job → List Job} {now : Int}
    {response after : JenkinsResponse} {out : List String}
    (h : getStaleJobs sortSort now response = some (out, after)) :
    after = ⟨sortSort response.Jobs, response.Views⟩ := by
  unfold getStaleJobs at h
  simp only at h
  split at h
  · simp at h
  · simp only [Option.some.injEq, Prod.mk.injEq] at h
    exact h.2.symm

theorem setOverview_length (s : List Job) (i : Nat) (ov : JobOverview) :
    (setOverview s i ov).length = s.length := by
  induction s generalizing i with
  | nil => rfl
  | cons job rest ih =>
    cases i with
    | zero => rfl
    | succ i => simp [setOverview, ih]

theorem setOverview_getElem? (s : List Job) (i k : Nat) (ov : JobOverview) :
    (setOverview s i ov)[k]? =
      if k = i then s[k]?.map (fun job => (⟨job.Name, job.URL, job.Color, some ov⟩ : Job))
      else s[k]? := by
  induction s generalizing i k with
  | nil => simp [setOverview]
  | cons job rest ih =>
    cases i with
    | zero =>
      cases k with
      | zero => simp [setOverview]
      | succ k => simp [setOverview]
    | succ i =>
      cases k with
      | zero => simp [setOverview]
      | succ k => simp [setOverview, ih]

theorem workerBody_eq {fetchJob : Job → Option JobOverview}
    {fetchBuild : Int → Job → Option BuildOverview} {s : List Job} {work : jobFetch}
    {ov : JobOverview} (hf : fetchedOverview fetchJob fetchBuild work.Job = some ov)
    (hi : work.JobIndex < s.length) :
    workerBody fetchJob fetchBuild s work = some (setOverview s work.JobIndex ov) := by
  unfold fetchedOverview at hf
  unfold workerBody
  cases hj : fetchJob work.Job with
  | none => rw [hj] at hf; simp at hf
  | some jobOverview =>
    rw [hj] at hf
    simp only at hf ⊢
    rw [if_pos hi]
    by_cases hn : jobOverview.LastBuild.Number > 0
    · rw [if_pos hn] at hf ⊢
      cases hb : fetchBuild jobOverview.LastBuild.Number work.Job with
      | none => rw [hb] at hf; simp at hf
      | some build =>
        rw [hb] at hf
        simp only [Option.some.injEq] at hf
        simp only [hf]
    · rw [if_neg hn] at hf ⊢
      simp only [Option.some.injEq] at hf
      rw [hf]

/-- Units with distinct indices fill their own slots: whatever the order, slot
`i` ends up with the overview fetched for the job of the unit numbered `i`, and
a slot no unit is numbered for stays as it was. -/
theorem foldlM_workerBody (fetchJob : Job → Option JobOverview)
    (fetchBuild : Int → Job → Option BuildOverview) (schedule : List jobFetch) :
    ∀ (s : List Job), (∀ u ∈ schedule, u.JobIndex < s.length) →
      (schedule.map jobFetch.JobIndex).Nodup →
      (∀ u ∈ schedule, fetchesSucceed fetchJob fetchBuild u.Job = true) →
      ∃ r, schedule.foldlM (workerBody fetchJob fetchBuild) s = some r ∧
        r.length = s.length ∧
        (∀ u ∈ schedule, r[u.JobIndex]? = s[u.JobIndex]?.map (fun job =>
          (⟨job.Name, job.URL, job.Color, fetchedOverview fetchJob fetchBuild u.Job⟩ : Job))) ∧
        (∀ i, (∀ u ∈ schedule, u.JobIndex ≠ i) → r[i]? = s[i]?) := by
  induction schedule with
  | nil =>
    intro s _ _ _
    exact ⟨s, rfl, rfl, by simp, fun _ _ => rfl⟩
  | cons w rest ih =>
    intro s hidx hnodup hfetch
    have hw := hfetch w (List.mem_cons_self _ _)
    unfold fetchesSucceed at hw
    obtain ⟨ov, hov⟩ := Option.isSome_iff_exists.mp hw
    have hwi := hidx w (List.mem_cons_self _ _)
    rw [List.map_cons, List.nodup_cons] at hnodup
    have hne : ∀ u ∈ rest, u.JobIndex ≠ w.JobIndex := by
      intro u hu heq
      exact hnodup.1 (heq ▸ List.mem_map_of_mem _ hu)
    obtain ⟨r, hr, hlen, hslots, hothers⟩ := ih (setOverview s w.JobIndex ov)
      (fun u hu => by
        rw [setOverview_length]
        exact hidx u (List.mem_cons_of_mem _ hu))
      hnodup.2 (fun u hu => hfetch u (List.mem_cons_of_mem _ hu))
    refine ⟨r, ?_, ?_, ?_, ?_⟩
    · rw [List.foldlM_cons, workerBody_eq hov hwi]
      exact hr
    · rw [hlen, setOverview_length]
    · intro u hu
      rcases List.mem_cons.mp hu with huw | hurest
      · subst huw
        rw [hothers u.JobIndex hne, setOverview_getElem?, if_pos rfl, hov]
      · rw [hslots u hurest, setOverview_getElem?, if_neg (hne u hurest)]
    · intro i hi
      rw [hothers i (fun u hu => hi u (List.mem_cons_of_mem _ hu)), setOverview_getElem?,
        if_neg (fun h => hi w (List.mem_cons_self _ _) h.symm)]

theorem workItemsFrom_indices (k : Nat) (jobs : List Job) :
    (workItemsFrom k jobs).map jobFetch.JobIndex = List.range' k jobs.length := by
  induction jobs generalizing k with
  | nil => rfl
  | cons job rest ih => simp [workItemsFrom, ih, List.range'_succ]

theorem mem_workItemsFrom {k : Nat} {jobs : List Job} {u : jobFetch} :
    u ∈ workItemsFrom k jobs ↔ ∃ i, jobs[i]? = some u.Job ∧ u.JobIndex = k + i := by
  induction jobs generalizing k with
  | nil => simp [workItemsFrom]
  | cons job rest ih =>
    simp only [workItemsFrom, List.mem_cons, ih]
    constructor
    · rintro (h | ⟨i, hi, hidx⟩)
      · subst h
        exact ⟨0, by simp, rfl⟩
      · exact ⟨i + 1, by simpa using hi, by omega⟩
    · rintro ⟨i, hi, hidx⟩
      cases i with
      | zero =>
        left
        simp only [List.getElem?_cons_zero, Option.some.injEq] at hi
        cases u
        simp only at hi hidx
        subst hi
        subst hidx
        rfl
      | succ i =>
        right
        exact ⟨i, by simpa using hi, by omega⟩

theorem mapM_attachDetail (getView : String → Option ViewDetails) (views : List View)
    (h : ∀ view ∈ views, (getView view.URL).isSome = true) :
    ∃ attached, views.mapM (attachDetail getView) = some attached := by
  induction views with
  | nil => exact ⟨[], rfl⟩
  | cons view rest ih =>
    obtain ⟨detail, hd⟩ := Option.isSome_iff_exists.mp (h view (List.mem_cons_self _ _))
    obtain ⟨attached, ha⟩ := ih (fun w hw => h w (List.mem_cons_of_mem _ hw))
    refine ⟨⟨view.Name, view.Color, view.URL, some detail⟩ :: attached, ?_⟩
    rw [List.mapM_cons, ha]
    simp [attachDetail, hd]

theorem stage1_eq (fetchJob : Job → Option JobOverview)
    (fetchBuild : Int → Job → Option BuildOverview) (jobs : List Job)
    (schedule : List jobFetch) (hperm : schedule.Perm (workItems jobs))
    (hjobs : ∀ job ∈ jobs, fetchesSucceed fetchJob fetchBuild job = true) :
    schedule.foldlM (workerBody fetchJob fetchBuild) jobs =
      some (jobs.map (enrichedJob fetchJob fetchBuild)) := by
  have hmem : ∀ u ∈ schedule, ∃ i, jobs[i]? = some u.Job ∧ u.JobIndex = i := by
    intro u hu
    obtain ⟨i, hi, hidx⟩ := mem_workItemsFrom.mp (hperm.mem_iff.mp hu)
    exact ⟨i, hi, by omega⟩
  have hidx : ∀ u ∈ schedule, u.JobIndex < jobs.length := by
    intro u hu
    obtain ⟨i, hi, hui⟩ := hmem u hu
    obtain ⟨hlt, -⟩ := List.getElem?_eq_some.mp hi
    omega
  have hnodup : (schedule.map jobFetch.JobIndex).Nodup := by
    rw [(hperm.map jobFetch.JobIndex).nodup_iff]
    unfold workItems
    rw [workItemsFrom_indices]
    exact List.nodup_range' _ _
  have hfetch : ∀ u ∈ schedule, fetchesSucceed fetchJob fetchBuild u.Job = true := by
    intro u hu
    obtain ⟨i, hi, -⟩ := hmem u hu
    obtain ⟨hlt, heq⟩ := List.getElem?_eq_some.mp hi
    exact hjobs u.Job (heq ▸ List.getElem_mem hlt)
  obtain ⟨r, hr, hlen, hslots, -⟩ :=
    foldlM_workerBody fetchJob fetchBuild schedule jobs hidx hnodup hfetch
  rw [hr]
  congr 1
  apply List.ext_getElem?
  intro i
  rw [List.getElem?_map]
  cases hi : jobs[i]? with
  | none =>
    have : jobs.length ≤ i := List.getElem?_eq_none_iff.mp hi
    rw [List.getElem?_eq_none_iff.mpr (by omega)]
    rfl
  | some job =>
    have hu : (⟨job, i⟩ : jobFetch) ∈ schedule :=
      hperm.mem_iff.mpr (mem_workItemsFrom.mpr ⟨i, hi, by simp⟩)
    have := hslots ⟨job, i⟩ hu
    simp only at this
    rw [this, hi]
    rfl

/-! ## A failed fetch in Stage 1 -/

theorem foldlM_none_of_mem {α β : Type} (f : β → α → Option β) (l : List α) (a : α)
    (ha : a ∈ l) (hf : ∀ b, f b a = none) (b : β) : l.foldlM f b = none := by
  induction l generalizing b with
  | nil => simp at ha
  | cons x rest ih =>
    rw [List.foldlM_cons]
    rcases List.mem_cons.mp ha with h | h
    · subst h
      rw [hf b]
      rfl
    · cases hx : f b x with
      | none => rfl
      | some b' =>
        simp only [Option.bind_eq_bind, Option.some_bind]
        exact ih h b'

/-- A unit one of whose fetches fails ends its worker, whatever the job slice
holds by then. -/
theorem workerBody_none_of_failed_fetch {fetchJob : Job → Option JobOverview}
    {fetchBuild : Int → Job → Option BuildOverview} {work : jobFetch}
    (hfail : fetchesSucceed fetchJob fetchBuild work.Job = false) (jobs : List Job) :
    workerBody fetchJob fetchBuild jobs work = none := by
  unfold fetchesSucceed fetchedOverview at hfail
  unfold workerBody
  cases hj : fetchJob work.Job with
  | none => rfl
  | some jobOverview =>
    rw [hj] at hfail
    simp only at hfail ⊢
    by_cases hi : work.JobIndex < jobs.length
    · rw [if_pos hi]
      by_cases hn : jobOverview.LastBuild.Number > 0
      · rw [if_pos hn] at hfail ⊢
        cases hb : fetchBuild jobOverview.LastBuild.Number work.Job with
        | none => rfl
        | some build => rw [hb] at hfail; simp at hfail
      · rw [if_neg hn] at hfail
        simp at hfail
    · rw [if_neg hi]

/-- Whenever a job-overview or build-overview fetch fails for some root job,
`getJobs` gives no result, in whatever order the units are processed: a worker
returns before `wg.Done()` and `wg.Wait()` does not return. -/
theorem getJobs_none_of_failed_fetch (root : JenkinsResponse) (schedule : List jobFetch)
    (fetchJob : Job → Option JobOverview) (fetchBuild : Int → Job → Option BuildOverview)
    (getView : String → Option ViewDetails)
    (hperm : schedule.Perm (workItems root.Jobs)) (job : Job) (hjob : job ∈ root.Jobs)
    (hfail : fetchesSucceed fetchJob fetchBuild job = false) :
    getJobs (some root) schedule fetchJob fetchBuild getView = none := by
  obtain ⟨i, hi, hget⟩ := List.getElem_of_mem hjob
  have hunit : (⟨job, i⟩ : jobFetch) ∈ schedule :=
    hperm.mem_iff.mpr (mem_workItemsFrom.mpr
      ⟨i, by rw [List.getElem?_eq_getElem hi, hget], by simp⟩)
  unfold getJobs
  simp only
  rw [foldlM_none_of_mem (workerBody fetchJob fetchBuild) schedule ⟨job, i⟩ hunit
    (fun jobs => workerBody_none_of_failed_fetch hfail jobs)]

/-- Were a response with a job lacking its overview handed to them, the loops of
`getNeverRun`, `getNeverPassed` and `getStaleJobs` would dereference the nil
`job.Overview` and panic. -/
theorem derivations_none_of_missing_overview (sortSort : List Job → List Job)
    (hs : SortContract sortSort) (now : Int) (response : JenkinsResponse) (job : Job)
    (hjob : job ∈ response.Jobs) (hnil : job.Overview = none) :
    getNeverRun response = none ∧ getNeverPassed response = none ∧
      getStaleJobs sortSort now response = none := by
  refine ⟨?_, ?_, ?_⟩
  · unfold getNeverRun
    rw [foldlM_none_of_mem neverRunBody _ job hjob (fun b => by simp [neverRunBody, hnil])]
  · unfold getNeverPassed
    rw [foldlM_none_of_mem neverPassedBody _ job hjob
      (fun b => by simp [neverPassedBody, hnil])]
  · unfold getStaleJobs
    simp only
    rw [foldlM_none_of_mem (staleBody now) _ job ((hs.perm _).mem_iff.mpr hjob)
      (fun b => by simp [staleBody, hnil])]

/-- Were a response with a job that has built and lacks its build overview
handed to it, the loop of `getStaleJobs` would dereference the nil
`LastBuild.Overview` and panic. -/
theorem getStaleJobs_none_of_missing_build (sortSort : List Job → List Job)
    (hs : SortContract sortSort) (now : Int) (response : JenkinsResponse) (job : Job)
    (ov : JobOverview) (hjob : job ∈ response.Jobs) (hov : job.Overview = some ov)
    (hnum : 0 < ov.LastBuild.Number) (hnil : ov.LastBuild.Overview = none) :
    getStaleJobs sortSort now response = none := by
  unfold getStaleJobs
  simp only
  rw [foldlM_none_of_mem (staleBody now) _ job ((hs.perm _).mem_iff.mpr hjob)
    (fun b => by simp [staleBody, hov, hnum, hnil])]

/-! ## The claims -/

/-- Claim C1, counterexample: on the scenario `showJobsOutsideViews` does not
return ["C"]; job B is in no view either, and the list returned is
["B", "C"]. -/
theorem scenario_outside_views_counterexample :
    (showJobsOutsideViews (scenario 1700000000000)).map Prod.fst = some ["B", "C"] ∧
    (showJobsOutsideViews (scenario 1700000000000)).map Prod.fst ≠ some ["C"] := by
  constructor <;> decide

/-- Claim C1, amended: on the scenario, at any instant `now` that is a whole
number of milliseconds more than 8 days after the epoch,
`showJobsOutsideViews` returns ["B", "C"], `getNeverRun` returns ["B"],
`getNeverPassed` returns ["C"] and `getStaleJobs` returns ["A 8 days ago"]. -/
theorem scenario_findings (sortSort : List Job → List Job) (hs : SortContract sortSort)
    (nowMs : Int) (hnow : 8 * 86400000 < nowMs) :
    showJobsOutsideViews (scenario nowMs) = some (["B", "C"], scenario nowMs) ∧
    getNeverRun (scenario nowMs) = some (["B"], scenario nowMs) ∧
    getNeverPassed (scenario nowMs) = some (["C"], scenario nowMs) ∧
    (getStaleJobs sortSort (nowMs * 1000000) (scenario nowMs)).map Prod.fst =
      some ["A 8 days ago"] := by
  refine ⟨?_, ?_, ?_, ?_⟩
  · rfl
  · rfl
  · rfl
  · rw [getStaleJobs_scenario sortSort hs nowMs hnow]
    rfl

/-- Witness for C1: the scenario on 14 November 2023, sorted by insertion sort. -/
theorem scenario_findings_witness :
    SortContract sortShort ∧ (8 * 86400000 : Int) < 1700000000000 ∧
    showJobsOutsideViews (scenario 1700000000000) =
      some (["B", "C"], scenario 1700000000000) ∧
    getNeverRun (scenario 1700000000000) = some (["B"], scenario 1700000000000) ∧
    getNeverPassed (scenario 1700000000000) = some (["C"], scenario 1700000000000) ∧
    (getStaleJobs sortShort (1700000000000 * 1000000) (scenario 1700000000000)).map Prod.fst =
      some ["A 8 days ago"] :=
  ⟨sortShort_contract, by decide,
    scenario_findings sortShort sortShort_contract 1700000000000 (by decide)⟩

/-- Claim C2: when every view has its detail attached, `showJobsOutsideViews`
returns, and for every job of the response the job's name is absent from the
returned list if and only if the name occurs in the detail job list of some
view not named "All"; the returned names follow the order of the root job
list; and replacing the job list of the view named "All" by any other job list
leaves the returned list the same. -/
theorem showJobsOutsideViews_outside (response : JenkinsResponse)
    (hdetail : ∀ view ∈ response.Views, view.Detail.isSome = true) :
    ∃ out, showJobsOutsideViews response = some (out, response) ∧
      (∀ j ∈ response.Jobs, j.Name ∉ out ↔ inSomeView response j.Name) ∧
      out.Sublist (response.Jobs.map Job.Name) ∧
      ∀ newJobs, showJobsOutsideViews (replaceAllJobs newJobs response) =
        some (out, replaceAllJobs newJobs response) := by
  obtain ⟨marked, hm, hq⟩ := foldlM_markView response.Views hdetail (fun _ => false)
  refine ⟨unallocatedJobs marked response.Jobs, ?_, ?_, ?_, ?_⟩
  · unfold showJobsOutsideViews
    rw [hm]
  · intro j hj
    rw [unallocatedJobs_eq]
    have hq2 := hq j.Name
    simp only [Bool.false_eq_true, false_or] at hq2
    unfold inSomeView
    rw [← hq2]
    constructor
    · intro hnot
      by_contra hmk
      apply hnot
      rw [List.mem_map]
      exact ⟨j, List.mem_filter.mpr ⟨hj, by simpa using hmk⟩, rfl⟩
    · intro hmk hmem
      rw [List.mem_map] at hmem
      obtain ⟨k, hk, hname⟩ := hmem
      have := (List.mem_filter.mp hk).2
      rw [hname, hmk] at this
      simp at this
  · rw [unallocatedJobs_eq]
    exact List.Sublist.map _ (List.filter_sublist _)
  · intro newJobs
    unfold showJobsOutsideViews replaceAllJobs
    simp only
    rw [foldlM_markView_replace, hm]

/-- Witness for C2: the scenario with a view "All" in front. -/
theorem showJobsOutsideViews_outside_witness :
    (∀ view ∈ (scenarioWithAll 1700000000000).Views, view.Detail.isSome = true) ∧
    ∃ out, showJobsOutsideViews (scenarioWithAll 1700000000000) =
        some (out, scenarioWithAll 1700000000000) ∧
      (∀ j ∈ (scenarioWithAll 1700000000000).Jobs,
        j.Name ∉ out ↔ inSomeView (scenarioWithAll 1700000000000) j.Name) ∧
      out.Sublist ((scenarioWithAll 1700000000000).Jobs.map Job.Name) ∧
      ∀ newJobs, showJobsOutsideViews (replaceAllJobs newJobs (scenarioWithAll 1700000000000)) =
        some (out, replaceAllJobs newJobs (scenarioWithAll 1700000000000)) :=
  ⟨by decide, showJobsOutsideViews_outside (scenarioWithAll 1700000000000) (by decide)⟩

/-- Claim C3, counterexample: a job built at 1700000000.999 s is reported stale
at 1700000000.5 s + 7 days, 0.499 s before 7×24 hours have elapsed since its
millisecond timestamp; the code measures from the timestamp cut to whole
seconds. -/
theorem stale_millis_counterexample :
    (getStaleJobs sortShort boundaryNow boundaryResponse).map Prod.fst =
      some ["X 7 days ago"] ∧
    isStaleMillis boundaryNow boundaryJob = false ∧
    elapsedMillis boundaryNow boundaryJob < 7 * 24 * Hour ∧
    FullyEnriched boundaryResponse := by
  refine ⟨?_, by decide, by decide, ⟨by decide, by decide⟩⟩
  have henr : ∀ job ∈ sortShort boundaryResponse.Jobs, jobEnriched job = true := by decide
  rw [getStaleJobs_eq sortShort _ _ henr]
  have hsort : sortShort boundaryResponse.Jobs = [boundaryJob] := by decide
  have hst : isStale boundaryNow boundaryJob = true := by decide
  have hel : elapsed boundaryNow boundaryJob = 604800500000000 := by decide
  have hfind : staleFinding boundaryNow boundaryJob = "X 7 days ago" := by
    unfold staleFinding
    rw [hel, floor_days_eq (by decide) (by decide) (by decide)]
    decide
  rw [hsort]
  simp only [List.filter, hst, List.map, hfind]
  rfl

/-- Claim C3, amended: on a fully enriched response `getStaleJobs` returns one
finding for each job with `lastBuild.number > 0`, last-build timestamp > 0 and
more than 7×24 hours elapsed from that timestamp, cut to whole seconds, to
`now`, and no other finding; the findings follow an arrangement of the jobs in
ascending order of last-build timestamp; each finding is the job name, then
floor(elapsed hours / 24) for that elapsed time, then " days ago". -/
theorem getStaleJobs_findings (sortSort : List Job → List Job) (hs : SortContract sortSort)
    (now : Int) (response : JenkinsResponse) (henr : FullyEnriched response) :
    ∃ sorted, sorted.Perm response.Jobs ∧
      sorted.Pairwise (fun a b => timestampOf a ≤ timestampOf b) ∧
      getStaleJobs sortSort now response =
        some ((sorted.filter (isStale now)).map (staleFinding now),
          ⟨sorted, response.Views⟩) :=
  ⟨sortSort response.Jobs, hs.perm _, hs.pairwise _,
    getStaleJobs_eq sortSort now response
      (fun job hjob => henr.1 job ((hs.perm response.Jobs).mem_iff.mp hjob))⟩

/-- Witness for C3: the scenario, sorted by insertion sort. -/
theorem getStaleJobs_findings_witness :
    SortContract sortShort ∧ FullyEnriched (scenario 1700000000000) ∧
    ∃ sorted, sorted.Perm (scenario 1700000000000).Jobs ∧
      sorted.Pairwise (fun a b => timestampOf a ≤ timestampOf b) ∧
      getStaleJobs sortShort 1700000000000000000 (scenario 1700000000000) =
        some ((sorted.filter (isStale 1700000000000000000)).map
          (staleFinding 1700000000000000000), ⟨sorted, (scenario 1700000000000).Views⟩) :=
  ⟨sortShort_contract, ⟨by decide, by decide⟩,
    getStaleJobs_findings sortShort sortShort_contract 1700000000000000000
      (scenario 1700000000000) ⟨by decide, by decide⟩⟩

/-- Claim C4: with unique job names and an overview on every job, a job with
`lastBuild.number == 0` is named by no finding of `getStaleJobs` (whatever the
day count) and is not named in the output of `getNeverPassed`, and when its
`lastSuccessfulBuild.number` is 0 as well it is named in the output of
`getNeverRun`. `getNeverPassed` and `getNeverRun` return; `getStaleJobs`
returns when every job is enriched. -/
theorem never_built_job (sortSort : List Job → List Job) (hs : SortContract sortSort)
    (now : Int) (response : JenkinsResponse) (hu : UniqueNames response)
    (hov : ∀ job ∈ response.Jobs, hasOverview job = true)
    (j : Job) (hj : j ∈ response.Jobs) (hzero : lastBuildNumber j = 0) :
    (∀ out after, getStaleJobs sortSort now response = some (out, after) →
      ∀ n, j.Name ++ " " ++ Itoa n ++ " days ago" ∉ out) ∧
    ((∀ job ∈ response.Jobs, jobEnriched job = true) →
      (getStaleJobs sortSort now response).isSome = true) ∧
    (∃ out, getNeverPassed response = some (out, response) ∧ j.Name ∉ out) ∧
    (lastSuccessfulBuildNumber j = 0 →
      ∃ out, getNeverRun response = some (out, response) ∧ j.Name ∈ out) := by
  refine ⟨?_, ?_, ⟨_, getNeverPassed_eq response hov, ?_⟩, ?_⟩
  · intro out after hget n hmem
    unfold getStaleJobs at hget
    simp only at hget
    cases hf : (sortSort response.Jobs).foldlM (staleBody now) [] with
    | none => rw [hf] at hget; simp at hget
    | some target =>
      rw [hf] at hget
      simp only [Option.some.injEq, Prod.mk.injEq] at hget
      rw [← hget.1] at hmem
      rcases foldlM_staleBody_mem now _ [] target hf _ hmem with h | ⟨k, hk, hpos, m, hm⟩
      · simp at h
      · have hk2 : k ∈ response.Jobs := (hs.perm response.Jobs).mem_iff.mp hk
        have hkj : j = k := eq_of_name_eq hu hj hk2 (finding_name_inj _ _ _ _ hm)
        subst hkj
        omega
  · intro henr
    rw [getStaleJobs_eq sortSort now response
      (fun job hjob => henr job ((hs.perm response.Jobs).mem_iff.mp hjob))]
    rfl
  · intro hmem
    rw [List.mem_map] at hmem
    obtain ⟨k, hk, hname⟩ := hmem
    obtain ⟨hk1, hk2⟩ := List.mem_filter.mp hk
    have hkj : k = j := eq_of_name_eq hu hk1 hj hname
    subst hkj
    simp only [Bool.and_eq_true, decide_eq_true_eq] at hk2
    omega
  · intro hsucc
    refine ⟨_, getNeverRun_eq response hov, ?_⟩
    rw [List.mem_map]
    exact ⟨j, List.mem_filter.mpr ⟨hj, by simp [hzero, hsucc]⟩, rfl⟩

/-- Witness for C4: job B of the scenario, which has never built. -/
theorem never_built_job_witness :
    SortContract sortShort ∧ UniqueNames (scenario 1700000000000) ∧
    (∀ job ∈ (scenario 1700000000000).Jobs, hasOverview job = true) ∧
    jobB ∈ (scenario 1700000000000).Jobs ∧ lastBuildNumber jobB = 0 ∧
    (∀ out after,
      getStaleJobs sortShort 1700000000000000000 (scenario 1700000000000) = some (out, after) →
      ∀ n, jobB.Name ++ " " ++ Itoa n ++ " days ago" ∉ out) ∧
    ((∀ job ∈ (scenario 1700000000000).Jobs, jobEnriched job = true) →
      (getStaleJobs sortShort 1700000000000000000 (scenario 1700000000000)).isSome = true) ∧
    (∃ out, getNeverPassed (scenario 1700000000000) = some (out, scenario 1700000000000) ∧
      jobB.Name ∉ out) ∧
    (lastSuccessfulBuildNumber jobB = 0 →
      ∃ out, getNeverRun (scenario 1700000000000) = some (out, scenario 1700000000000) ∧
        jobB.Name ∈ out) :=
  ⟨sortShort_contract, by unfold UniqueNames; decide, by decide, by decide, by decide,
    never_built_job sortShort sortShort_contract 1700000000000000000 (scenario 1700000000000)
      (by unfold UniqueNames; decide) (by decide) jobB (by decide) (by decide)⟩

/-- Claim C5: with unique job names and an overview on every job,
`getNeverPassed` and `getNeverRun` both return; a job with
`lastBuild.number > 0` and `lastSuccessfulBuild.number == 0` is named in the
output of `getNeverPassed` and not in the output of `getNeverRun`; and no name
is in both outputs. -/
theorem neverPassed_not_neverRun (response : JenkinsResponse) (hu : UniqueNames response)
    (hov : ∀ job ∈ response.Jobs, hasOverview job = true) :
    ∃ neverPassed neverRun,
      getNeverPassed response = some (neverPassed, response) ∧
      getNeverRun response = some (neverRun, response) ∧
      (∀ j ∈ response.Jobs, 0 < lastBuildNumber j → lastSuccessfulBuildNumber j = 0 →
        j.Name ∈ neverPassed ∧ j.Name ∉ neverRun) ∧
      ∀ name, ¬ (name ∈ neverPassed ∧ name ∈ neverRun) := by
  refine ⟨_, _, getNeverPassed_eq response hov, getNeverRun_eq response hov, ?_, ?_⟩
  · intro j hj hpos hzero
    constructor
    · rw [List.mem_map]
      exact ⟨j, List.mem_filter.mpr ⟨hj, by simp [hpos, hzero]⟩, rfl⟩
    · intro hmem
      rw [List.mem_map] at hmem
      obtain ⟨k, hk, hname⟩ := hmem
      obtain ⟨hk1, hk2⟩ := List.mem_filter.mp hk
      have hkj : k = j := eq_of_name_eq hu hk1 hj hname
      subst hkj
      simp only [Bool.and_eq_true, decide_eq_true_eq] at hk2
      omega
  · rintro name ⟨hp, hr⟩
    rw [List.mem_map] at hp hr
    obtain ⟨k, hk, hkn⟩ := hp
    obtain ⟨m, hm, hmn⟩ := hr
    obtain ⟨hk1, hk2⟩ := List.mem_filter.mp hk
    obtain ⟨hm1, hm2⟩ := List.mem_filter.mp hm
    have hkm : k = m := eq_of_name_eq hu hk1 hm1 (hkn.trans hmn.symm)
    subst hkm
    simp only [Bool.and_eq_true, decide_eq_true_eq] at hk2 hm2
    omega

/-- Witness for C5: the scenario, in which C has run and never passed. -/
theorem neverPassed_not_neverRun_witness :
    UniqueNames (scenario 1700000000000) ∧
    (∀ job ∈ (scenario 1700000000000).Jobs, hasOverview job = true) ∧
    ∃ neverPassed neverRun,
      getNeverPassed (scenario 1700000000000) = some (neverPassed, scenario 1700000000000) ∧
      getNeverRun (scenario 1700000000000) = some (neverRun, scenario 1700000000000) ∧
      (∀ j ∈ (scenario 1700000000000).Jobs, 0 < lastBuildNumber j →
        lastSuccessfulBuildNumber j = 0 → j.Name ∈ neverPassed ∧ j.Name ∉ neverRun) ∧
      ∀ name, ¬ (name ∈ neverPassed ∧ name ∈ neverRun) :=
  ⟨by unfold UniqueNames; decide, by decide,
    neverPassed_not_neverRun (scenario 1700000000000) (by unfold UniqueNames; decide)
      (by decide)⟩

/-- Claim C6, the code at the failing input: a server lists A, B and C and its
answer to the job-overview request for B does not decode. The worker that
takes B's unit returns before `wg.Done()`, so `getJobs` gives no result, in
the sending order and in the order C, A, B alike, and the run derives no list:
`getStaleJobs`, `getNeverRun` and `getNeverPassed` are never reached. With
every answer decoding, the same run completes with its four lists. -/
theorem failed_job_fetch_run :
    getJobs (some rootResponse) (workItems rootResponse.Jobs)
      serverJobBadB serverBuild serverView = none ∧
    getJobs (some rootResponse) [⟨⟨"C", "c/", "red", none⟩, 2⟩,
      ⟨⟨"A", "a/", "blue", none⟩, 0⟩, ⟨⟨"B", "b/", "notbuilt", none⟩, 1⟩]
      serverJobBadB serverBuild serverView = none ∧
    mainRun (some rootResponse) (workItems rootResponse.Jobs)
      serverJobBadB serverBuild serverView sortShort 1699400000000000000 = none ∧
    mainRun (some rootResponse) (workItems rootResponse.Jobs)
      serverJob serverBuild serverView sortShort 1699400000000000000 =
      some (["B", "C"], ["B"], ["C"], []) := by
  refine ⟨by decide, by decide, by decide, by decide⟩

/-- Claim C7, the code at the failing input: a server lists A, B and C, the
overview of C says `lastBuild.number = 3`, and its answer to the build-overview
request for C does not decode. The worker that takes C's unit stores the
overview and returns before `wg.Done()`, so `getJobs` gives no result, in the
sending order and in the order C, A, B alike, and `getStaleJobs` is never
reached. -/
theorem failed_build_fetch_run :
    (serverJob ⟨"C", "c/", "red", none⟩).map (fun ov => ov.LastBuild.Number) = some 3 ∧
    getJobs (some rootResponse) (workItems rootResponse.Jobs)
      serverJob serverBuildBadC serverView = none ∧
    getJobs (some rootResponse) [⟨⟨"C", "c/", "red", none⟩, 2⟩,
      ⟨⟨"A", "a/", "blue", none⟩, 0⟩, ⟨⟨"B", "b/", "notbuilt", none⟩, 1⟩]
      serverJob serverBuildBadC serverView = none ∧
    mainRun (some rootResponse) (workItems rootResponse.Jobs)
      serverJob serverBuildBadC serverView sortShort 1699400000000000000 = none := by
  refine ⟨by decide, by decide, by decide, by decide⟩

/-- Claim C8, counterexample: on the scenario `getStaleJobs` leaves the job
sequence in the order B, A, C, not in the order A, B, C it was given. -/
theorem getStaleJobs_reorders_counterexample :
    ∃ out after,
      getStaleJobs sortShort (1700000000000 * 1000000) (scenario 1700000000000) =
        some (out, after) ∧
      after.Jobs.map Job.Name = ["B", "A", "C"] ∧
      (scenario 1700000000000).Jobs.map Job.Name = ["A", "B", "C"] ∧
      after.Jobs ≠ (scenario 1700000000000).Jobs :=
  ⟨_, _, getStaleJobs_scenario sortShort sortShort_contract 1700000000000 (by decide),
    by decide, by decide, by decide⟩

/-- Claim C8, amended: `showJobsOutsideViews`, `getNeverRun` and `getNeverPassed`
leave the audit result as it was; `getStaleJobs` leaves the view sequence as it
was and leaves the job sequence a rearrangement of what it was, in ascending
order of last-build timestamp. All four return on a fully enriched result. -/
theorem derivations_frame (sortSort : List Job → List Job) (hs : SortContract sortSort)
    (now : Int) (response : JenkinsResponse) :
    (∀ out after, showJobsOutsideViews response = some (out, after) → after = response) ∧
    (∀ out after, getNeverRun response = some (out, after) → after = response) ∧
    (∀ out after, getNeverPassed response = some (out, after) → after = response) ∧
    (∀ out after, getStaleJobs sortSort now response = some (out, after) →
      after.Views = response.Views ∧ after.Jobs.Perm response.Jobs ∧
      after.Jobs.Pairwise (fun a b => timestampOf a ≤ timestampOf b)) ∧
    (FullyEnriched response →
      (showJobsOutsideViews response).isSome = true ∧ (getNeverRun response).isSome = true ∧
      (getNeverPassed response).isSome = true ∧
      (getStaleJobs sortSort now response).isSome = true) := by
  refine ⟨fun _ _ h => showJobsOutsideViews_after h, fun _ _ h => getNeverRun_after h,
    fun _ _ h => getNeverPassed_after h, ?_, ?_⟩
  · intro out after h
    rw [getStaleJobs_after h]
    exact ⟨rfl, hs.perm _, hs.pairwise _⟩
  · intro henr
    have hov : ∀ job ∈ response.Jobs, hasOverview job = true :=
      fun job hjob => hasOverview_of_jobEnriched (henr.1 job hjob)
    obtain ⟨marked, -, hshow⟩ := showJobsOutsideViews_eq response henr.2
    rw [hshow, getNeverRun_eq response hov, getNeverPassed_eq response hov,
      getStaleJobs_eq sortSort now response
        (fun job hjob => henr.1 job ((hs.perm response.Jobs).mem_iff.mp hjob))]
    exact ⟨rfl, rfl, rfl, rfl⟩

/-- Witness for C8: the scenario, sorted by insertion sort. -/
theorem derivations_frame_witness :
    SortContract sortShort ∧
    (∀ out after, showJobsOutsideViews (scenario 1700000000000) = some (out, after) →
      after = scenario 1700000000000) ∧
    (∀ out after, getNeverRun (scenario 1700000000000) = some (out, after) →
      after = scenario 1700000000000) ∧
    (∀ out after, getNeverPassed (scenario 1700000000000) = some (out, after) →
      after = scenario 1700000000000) ∧
    (∀ out after,
      getStaleJobs sortShort 1700000000000000000 (scenario 1700000000000) = some (out, after) →
      after.Views = (scenario 1700000000000).Views ∧
      after.Jobs.Perm (scenario 1700000000000).Jobs ∧
      after.Jobs.Pairwise (fun a b => timestampOf a ≤ timestampOf b)) ∧
    (FullyEnriched (scenario 1700000000000) →
      (showJobsOutsideViews (scenario 1700000000000)).isSome = true ∧
      (getNeverRun (scenario 1700000000000)).isSome = true ∧
      (getNeverPassed (scenario 1700000000000)).isSome = true ∧
      (getStaleJobs sortShort 1700000000000000000 (scenario 1700000000000)).isSome = true) :=
  ⟨sortShort_contract,
    derivations_frame sortShort sortShort_contract 1700000000000000000
      (scenario 1700000000000)⟩

/-- Claim C10: for every root response and every order in which the Stage 1
work units are processed (every permutation of the units sent), all fetches
succeeding, `getJobs` returns, and its job sequence is the root job list with,
position by position, the same name, URL and colour and the overview fetched
for the root job at that position; so the same response results as from
processing the units in the order they were sent. -/
theorem getJobs_order_independent (root : JenkinsResponse) (schedule : List jobFetch)
    (fetchJob : Job → Option JobOverview) (fetchBuild : Int → Job → Option BuildOverview)
    (getView : String → Option ViewDetails)
    (hperm : schedule.Perm (workItems root.Jobs))
    (hjobs : ∀ job ∈ root.Jobs, fetchesSucceed fetchJob fetchBuild job = true)
    (hviews : ∀ view ∈ root.Views, (getView view.URL).isSome = true) :
    ∃ res, getJobs (some root) schedule fetchJob fetchBuild getView = some res ∧
      res.Jobs = root.Jobs.map (enrichedJob fetchJob fetchBuild) ∧
      res.Jobs.length = root.Jobs.length ∧
      (∀ (i : Nat) (job : Job), root.Jobs[i]? = some job →
        ∃ slot : Job, res.Jobs[i]? = some slot ∧ slot.Name = job.Name ∧ slot.URL = job.URL ∧
          slot.Color = job.Color ∧
          slot.Overview = fetchedOverview fetchJob fetchBuild job ∧
          slot.Overview.isSome = true) ∧
      getJobs (some root) (workItems root.Jobs) fetchJob fetchBuild getView = some res := by
  obtain ⟨attached, ha⟩ := mapM_attachDetail getView root.Views hviews
  refine ⟨⟨root.Jobs.map (enrichedJob fetchJob fetchBuild), attached⟩, ?_, rfl, by simp, ?_, ?_⟩
  · unfold getJobs
    simp only
    rw [stage1_eq fetchJob fetchBuild root.Jobs schedule hperm hjobs]
    simp only
    rw [ha]
  · intro i job hi
    refine ⟨enrichedJob fetchJob fetchBuild job, ?_, rfl, rfl, rfl, rfl, ?_⟩
    · simp only [List.getElem?_map, hi, Option.map_some']
    · obtain ⟨hlt, heq⟩ := List.getElem?_eq_some.mp hi
      exact hjobs job (heq ▸ List.getElem_mem hlt)
  · unfold getJobs
    simp only
    rw [stage1_eq fetchJob fetchBuild root.Jobs _ (List.Perm.refl _) hjobs]
    simp only
    rw [ha]

/-- Witness for C10: the units of A, B, C processed in the order C, A, B. -/
theorem getJobs_order_independent_witness :
    ([⟨⟨"C", "c/", "red", none⟩, 2⟩, ⟨⟨"A", "a/", "blue", none⟩, 0⟩,
      ⟨⟨"B", "b/", "notbuilt", none⟩, 1⟩] : List jobFetch).Perm (workItems rootResponse.Jobs) ∧
    (∀ job ∈ rootResponse.Jobs, fetchesSucceed serverJob serverBuild job = true) ∧
    (∀ view ∈ rootResponse.Views, (serverView view.URL).isSome = true) ∧
    ∃ res, getJobs (some rootResponse) [⟨⟨"C", "c/", "red", none⟩, 2⟩,
        ⟨⟨"A", "a/", "blue", none⟩, 0⟩, ⟨⟨"B", "b/", "notbuilt", none⟩, 1⟩]
        serverJob serverBuild serverView = some res ∧
      res.Jobs = rootResponse.Jobs.map (enrichedJob serverJob serverBuild) ∧
      res.Jobs.length = rootResponse.Jobs.length ∧
      (∀ (i : Nat) (job : Job), rootResponse.Jobs[i]? = some job →
        ∃ slot : Job, res.Jobs[i]? = some slot ∧ slot.Name = job.Name ∧ slot.URL = job.URL ∧
          slot.Color = job.Color ∧
          slot.Overview = fetchedOverview serverJob serverBuild job ∧
          slot.Overview.isSome = true) ∧
      getJobs (some rootResponse) (workItems rootResponse.Jobs)
        serverJob serverBuild serverView = some res :=
  ⟨by decide, by decide, by decide,
    getJobs_order_independent rootResponse _ serverJob serverBuild serverView
      (by decide) (by decide) (by decide)⟩

end AuditJenkins
